import Mathlib

/-!
Verification of the Dify-as-Code reconciliation core (configManager.ts,
commands.ts) against its specification.  The TypeScript source is shallowly
embedded: the on-disk hierarchy is modelled as association lists from
directory / file names to structured records, and each operation of the
source is translated into a pure Lean function over those maps.  The MD5
content hash (`crypto.createHash('md5')`) and the YAML `app.mode` extraction
(`yaml.load(dsl)?.app?.mode`) are abstracted as explicit function parameters
`hash : String → String` and `modeOf : String → Option String`; every theorem
is universally quantified over them (so it holds in particular for MD5), and
no theorem relies on any property of the hash beyond it being a function.
-/

namespace Dify

/-! ### JavaScript string semantics helpers -/

/-- The characters replaced by `_` in `sanitizeName`
(regex `[<>:"/\\|?*]` in configManager.ts). -/
def unsafeChars : List Char := ['<', '>', ':', '"', '/', '\\', '|', '?', '*']

def sanitizeChar (c : Char) : Char := if c ∈ unsafeChars then '_' else c

/-- Collapse each run of whitespace to a single `_` (regex `\s+` → `_`).
The flag records whether the previous character was whitespace. -/
def collapseWsAux : Bool → List Char → List Char
  | _, [] => []
  | prevWs, c :: cs =>
    if c.isWhitespace then
      if prevWs then collapseWsAux true cs else '_' :: collapseWsAux true cs
    else c :: collapseWsAux false cs

/-- JS `String.prototype.trim`: drop leading and trailing whitespace
(kernel-computable, unlike `String.trim`). -/
def trimChars (l : List Char) : List Char :=
  ((l.dropWhile Char.isWhitespace).reverse.dropWhile Char.isWhitespace).reverse

def jsTrim (s : String) : String := String.mk (trimChars s.data)

/-- JS `s.startsWith(p)` (kernel-computable). -/
def jsStartsWith (s p : String) : Bool := s.data.take p.data.length == p.data

/-- `ConfigManager.sanitizeName`: replace unsafe characters with `_`,
collapse whitespace runs to `_`, then trim. -/
def sanitizeName (s : String) : String :=
  jsTrim (String.mk (collapseWsAux false (s.data.map sanitizeChar)))

/-- JS `s.slice(0, n)` (ASCII). -/
def jsTake (s : String) (n : Nat) : String := String.mk (s.data.take n)

/-- JS `s.slice(n)` (ASCII). -/
def jsDrop (s : String) (n : Nat) : String := String.mk (s.data.drop n)

/-- JS `s.slice(-n)`: the last `n` characters; `slice(-0)` is the whole
string. -/
def jsSliceNeg (s : String) (n : Nat) : String :=
  if n = 0 then s else String.mk (s.data.drop (s.data.length - min n s.data.length))

def strLen (s : String) : Nat := s.data.length

/-- Does `sub` occur in `s` starting at index `i`? -/
def matchesAt (s sub : List Char) (i : Nat) : Bool :=
  (s.drop i).take sub.length == sub

/-- JS `s.lastIndexOf(sub)`: the greatest index at which `sub` occurs, or
`none` (JS `-1`).  `lastIndexOf("")` is the length of `s`. -/
def lastIndexOfSub (s sub : String) : Option Nat :=
  let n := s.data.length
  let m := sub.data.length
  if m > n then none
  else (List.range (n - m + 1)).reverse.find? (fun i => matchesAt s.data sub.data i)

/-- Node `path.extname`: the part of the basename from its last `.`,
empty when there is none or when the dot is the first character. -/
def extname (name : String) : String :=
  let base := (name.data.reverse.takeWhile (· ≠ '/')).reverse
  match (List.range base.length).reverse.find? (fun i => base.get? i = some '.') with
  | some i => if i = 0 then "" else String.mk (base.drop i)
  | none => ""

/-- Number of indices at which `sub` occurs in `s` (used to state the
"no duplicated phrase" part of Scenario B). -/
def countSubstr (s sub : String) : Nat :=
  ((List.range (s.data.length + 1)).filter (fun i => matchesAt s.data sub.data i)).length

/-- JS `arr.join('\n\n')`. -/
def joinNN : List String → String
  | [] => ""
  | [x] => x
  | x :: xs => x ++ "\n\n" ++ joinNN xs

/-! ### Association-list store

The local tree is modelled as association lists from names to records.
`lookupA` is first-match lookup, `insertA` replaces the first entry in place
(or appends), `eraseA` removes the entry — matching unique directory names
on a real filesystem. -/

def lookupA {α : Type} : List (String × α) → String → Option α
  | [], _ => none
  | (k, v) :: l, n => if k = n then some v else lookupA l n

def insertA {α : Type} : List (String × α) → String → α → List (String × α)
  | [], k, v => [(k, v)]
  | (k', v') :: l, k, v =>
    if k' = k then (k, v) :: l else (k', v') :: insertA l k v

def eraseA {α : Type} (l : List (String × α)) (k : String) : List (String × α) :=
  l.filter (fun e => e.1 ≠ k)

def keysA {α : Type} (l : List (String × α)) : List String := l.map Prod.fst

theorem lookupA_insertA_self {α : Type} (l : List (String × α)) (k : String) (v : α) :
    lookupA (insertA l k v) k = some v := by
  induction l with
  | nil => simp [insertA, lookupA]
  | cons e l ih =>
    rcases e with ⟨ek, ev⟩
    by_cases h : ek = k
    · simp [insertA, h, lookupA]
    · simp [insertA, h, lookupA, ih]

theorem lookupA_insertA_ne {α : Type} (l : List (String × α)) (k k' : String) (v : α)
    (h : k' ≠ k) : lookupA (insertA l k v) k' = lookupA l k' := by
  have h' : ¬ k = k' := fun hh => h hh.symm
  induction l with
  | nil => simp [insertA, lookupA, h']
  | cons e l ih =>
    rcases e with ⟨ek, ev⟩
    by_cases he : ek = k
    · subst he
      simp [insertA, lookupA, h']
    · simp [insertA, he, lookupA, ih]

theorem lookupA_eraseA_self {α : Type} (l : List (String × α)) (k : String) :
    lookupA (eraseA l k) k = none := by
  induction l with
  | nil => simp [eraseA, lookupA]
  | cons e l ih =>
    rcases e with ⟨ek, ev⟩
    by_cases h : ek = k
    · subst h
      simpa [eraseA] using ih
    · simpa [eraseA, h, lookupA] using ih

theorem lookupA_eraseA_ne {α : Type} (l : List (String × α)) (k k' : String)
    (h : k' ≠ k) : lookupA (eraseA l k) k' = lookupA l k' := by
  have h' : ¬ k = k' := fun hh => h hh.symm
  induction l with
  | nil => simp [eraseA, lookupA]
  | cons e l ih =>
    rcases e with ⟨ek, ev⟩
    by_cases hek : ek = k
    · subst hek
      simpa [eraseA, lookupA, h'] using ih
    · by_cases he' : ek = k'
      · simp [eraseA, lookupA, he', h]
      · simpa [eraseA, lookupA, hek, he'] using ih

theorem lookupA_mem {α : Type} {l : List (String × α)} {n : String} {a : α}
    (h : lookupA l n = some a) : (n, a) ∈ l := by
  induction l with
  | nil => simp [lookupA] at h
  | cons e l ih =>
    rcases e with ⟨ek, ev⟩
    by_cases he : ek = n
    · subst he
      simp [lookupA] at h
      subst h
      exact List.mem_cons_self _ _
    · simp [lookupA, he] at h
      exact List.mem_cons_of_mem _ (ih h)

theorem lookupA_isSome_iff_mem_keys {α : Type} (l : List (String × α)) (n : String) :
    (lookupA l n).isSome ↔ n ∈ keysA l := by
  induction l with
  | nil => simp [lookupA, keysA]
  | cons e l ih =>
    rcases e with ⟨ek, ev⟩
    by_cases he : ek = n
    · subst he
      simp [lookupA, keysA]
    · have h2 : ¬ n = ek := fun hh => he hh.symm
      simp [lookupA, keysA, he, h2, ih]

theorem lookupA_eq_none_of_not_mem_keys {α : Type} {l : List (String × α)} {n : String}
    (h : n ∉ keysA l) : lookupA l n = none := by
  cases hl : lookupA l n with
  | none => rfl
  | some a =>
    have hs : (lookupA l n).isSome := by rw [hl]; rfl
    exact absurd ((lookupA_isSome_iff_mem_keys l n).1 hs) h

theorem keysA_insertA {α : Type} (l : List (String × α)) (k : String) (v : α) :
    keysA (insertA l k v) = if k ∈ keysA l then keysA l else keysA l ++ [k] := by
  induction l with
  | nil => simp [insertA, keysA]
  | cons e l ih =>
    rcases e with ⟨ek, ev⟩
    by_cases he : ek = k
    · subst he
      simp [insertA, keysA]
    · have h2 : ¬ k = ek := fun hh => he hh.symm
      have hstep : insertA ((ek, ev) :: l) k v = (ek, ev) :: insertA l k v := by
        simp [insertA, he]
      rw [hstep]
      have hkeys : keysA ((ek, ev) :: insertA l k v) = ek :: keysA (insertA l k v) := by
        simp [keysA]
      rw [hkeys, ih]
      by_cases hk : k ∈ List.map Prod.fst l
      · simp [keysA, List.mem_cons, h2, hk]
      · simp [keysA, List.mem_cons, h2, hk]

theorem nodup_keysA_insertA {α : Type} (l : List (String × α)) (k : String) (v : α)
    (h : (keysA l).Nodup) : (keysA (insertA l k v)).Nodup := by
  rw [keysA_insertA]
  by_cases hk : k ∈ keysA l
  · simpa [hk]
  · simp only [hk, if_false]
    rw [List.nodup_append]
    refine ⟨h, List.nodup_singleton k, ?_⟩
    intro x hx hxk
    have hxeq : x = k := by simpa using hxk
    exact hk (hxeq ▸ hx)

theorem nodup_keysA_eraseA {α : Type} (l : List (String × α)) (k : String)
    (h : (keysA l).Nodup) : (keysA (eraseA l k)).Nodup := by
  have hsub : (keysA (eraseA l k)).Sublist (keysA l) :=
    List.Sublist.map Prod.fst (List.filter_sublist l)
  exact List.Nodup.sublist hsub h

/-! ### Data model (types.ts) -/

/-- `AppType` from types.ts. -/
inductive AppType : Type
  | chatbot
  | textGeneration
  | agent
  | chatflow
  | workflow
  deriving DecidableEq

/-- `APP_MODE_TO_TYPE` from types.ts. -/
def APP_MODE_TO_TYPE (mode : String) : Option AppType :=
  if mode = "chat" then some .chatbot
  else if mode = "completion" then some .textGeneration
  else if mode = "agent-chat" then some .agent
  else if mode = "advanced-chat" then some .chatflow
  else if mode = "workflow" then some .workflow
  else none

/-- `SyncMetadata` from types.ts (`role`/`readonly` are optional fields). -/
structure SyncMetadata : Type where
  app_id : String
  app_type : AppType
  role : Option String
  readonly : Option Bool
  last_synced_at : String
  remote_updated_at : String
  local_hash : String
  deriving DecidableEq

/-- `SyncStatus` from types.ts. -/
inductive SyncStatus : Type
  | synced
  | localModified
  | remoteModified
  deriving DecidableEq

/-- One app directory under `workspace/studio/`: its `app.yml` content (if
the file exists) and its `.sync.yml` record (if it exists). -/
structure AppDir : Type where
  dsl : Option String
  syncMeta : Option SyncMetadata
  deriving DecidableEq

/-- `syncMetadata?.app_id || ''`: the remote id recorded for an app
directory, the empty string when there is no sync metadata. -/
def idOf (a : AppDir) : String :=
  match a.syncMeta with
  | some m => m.app_id
  | none => ""

/-! ### Sync Status Evaluator (`ConfigManager.getAppSyncStatus`) -/

/-- `ConfigManager.getAppSyncStatus`: `local-modified` when no `.sync.yml`
exists; otherwise `local-modified` when the hash of the current `app.yml`
differs from the recorded `local_hash`; otherwise `synced`. -/
def getAppSyncStatus (hash : String → String) (a : AppDir) : SyncStatus :=
  match a.syncMeta with
  | none => .localModified
  | some m =>
    match a.dsl with
    | some d => if hash d ≠ m.local_hash then .localModified else .synced
    | none => .synced

/-! ### Knowledge Merge Engine (`ConfigManager.saveKnowledgeDocuments`) -/

/-- A remote content segment (`{ id, position, content, ... }`). -/
structure Segment : Type where
  id : String
  position : Int
  content : String
  deriving DecidableEq

/-- Stable insertion relative to ascending `position`
(JS `sort((a, b) => a.position - b.position)` is stable). -/
def insertByPos (x : Segment) : List Segment → List Segment
  | [] => [x]
  | y :: ys => if x.position ≤ y.position then x :: y :: ys else y :: insertByPos x ys

/-- Stable sort of segments by `position`. -/
def sortByPos (l : List Segment) : List Segment := l.foldr insertByPos []

/-- The inner `for (let overlapSize = …; overlapSize > 0; overlapSize--)`
loop: try overlap sizes from `k` down to 1, returning the first size whose
segment head occurs in `previousEnd` at an index within 10 of the tail. -/
def findOverlapSize (previousEnd current : String) : Nat → Option Nat
  | 0 => none
  | k + 1 =>
    let segmentStart := jsTake current (k + 1)
    match lastIndexOfSub previousEnd segmentStart with
    | some idx =>
      if (idx : Int) ≥ (strLen previousEnd : Int) - (k + 1) - 10 then some (k + 1)
      else findOverlapSize previousEnd current k
    | none => findOverlapSize previousEnd current k

/-- One iteration of the stitching loop in `saveKnowledgeDocuments`:
append the current segment to the accumulated content, dropping a detected
overlap.  Note the source appends `'\n\n'` in *both* branches. -/
def mergeStep (chunkOverlap : Nat) (content : String) (seg : Segment) : String :=
  let currentSegment := seg.content
  let previousEnd := jsSliceNeg content (chunkOverlap * 2)
  match findOverlapSize previousEnd currentSegment
      (min (chunkOverlap * 2) (strLen currentSegment)) with
  | some overlapSize => content ++ "\n\n" ++ jsDrop currentSegment overlapSize
  | none => content ++ "\n\n" ++ currentSegment

/-- The segment-stitching part of `saveKnowledgeDocuments`: sort by
`position`, keep the first segment entirely, de-overlap the rest. -/
def mergeSegments (chunkOverlap : Nat) (segs : List Segment) : String :=
  match sortByPos segs with
  | [] => ""
  | s0 :: rest => rest.foldl (mergeStep chunkOverlap) s0.content

/-- One document as passed to `saveKnowledgeDocuments`. -/
structure DocInput : Type where
  id : String
  name : String
  content : String
  segments : List Segment
  deriving DecidableEq

/-- Entry of the `documents` list inside a knowledge base's `.sync.yml`. -/
structure KbDocMeta : Type where
  id : String
  name : String
  file : String
  segment_count : Option Nat
  is_local : Bool
  deriving DecidableEq

/-- A knowledge base's `.sync.yml` record. -/
structure KbSync : Type where
  dataset_id : String
  dataset_name : String
  last_synced_at : String
  document_count : Nat
  documents : List KbDocMeta
  deriving DecidableEq

/-- One dataset directory under `workspace/knowledge/`: its document files
and its `.sync.yml` record. -/
structure KbDir : Type where
  files : List (String × String)
  syncMeta : Option KbSync
  deriving DecidableEq

/-- The local file name for a document:
`sanitizeName(doc.name) + (path.extname(doc.name) || '.txt')`. -/
def docFileName (name : String) : String :=
  let ext := extname name
  sanitizeName name ++ (if ext = "" then ".txt" else ext)

/-- The content written for a document: the de-overlapped merge of its
segments when it has any, otherwise `doc.content || ''`. -/
def mergeDocContent (chunkOverlap : Nat) (d : DocInput) : String :=
  if d.segments.length > 0 then mergeSegments chunkOverlap d.segments
  else d.content

/-- The per-document write loop of `saveKnowledgeDocuments`: write each
document's merged content unless a local file with that name already
exists (local-first skip rule). -/
def saveKbFiles (chunkOverlap : Nat) (files : List (String × String))
    (docs : List DocInput) : List (String × String) :=
  docs.foldl
    (fun fs d =>
      let fn := docFileName d.name
      if (lookupA fs fn).isSome then fs
      else insertA fs fn (mergeDocContent chunkOverlap d))
    files

/-- The `documents` entry recorded for a fetched remote document. -/
def remoteDocMeta (d : DocInput) : KbDocMeta :=
  { id := d.id, name := d.name, file := docFileName d.name,
    segment_count := some d.segments.length, is_local := false }

/-- The dataset directory after one `saveKnowledgeDocuments` call: missing
document files are written (merged from segments), and the `.sync.yml` is
rewritten, keeping local-only documents absent from the fetched remote set. -/
def kbDirAfterSave (dir : KbDir) (datasetId datasetName : String)
    (docs : List DocInput) (chunkOverlap : Nat) (now : String) : KbDir :=
  let files := saveKbFiles chunkOverlap dir.files docs
  let existingDocs := match dir.syncMeta with
    | some m => m.documents
    | none => []
  let remoteDocIds := docs.map (·.id)
  let localOnlyDocs := existingDocs.filter (fun d => d.is_local && !(remoteDocIds.contains d.id))
  let allDocs := docs.map remoteDocMeta ++ localOnlyDocs
  ⟨files,
   some { dataset_id := datasetId, dataset_name := datasetName,
          last_synced_at := now, document_count := allDocs.length,
          documents := allDocs }⟩

/-- `ConfigManager.saveKnowledgeDocuments` on the knowledge map: operate on
the directory named `sanitizeName(datasetName)` (created empty if absent). -/
def saveKnowledgeDocuments (km : List (String × KbDir)) (datasetId datasetName : String)
    (docs : List DocInput) (chunkOverlap : Nat) (now : String) : List (String × KbDir) :=
  let key := sanitizeName datasetName
  let dir := (lookupA km key).getD ⟨[], none⟩
  insertA km key (kbDirAfterSave dir datasetId datasetName docs chunkOverlap now)

/-! ### Entity Hierarchy Store: apps (`ConfigManager.saveAppDsl` etc.) -/

/-- Resolution of the `appType` argument in `saveAppDsl`: when absent, the
`app.mode` of the parsed DSL (abstracted as `modeOf`) is mapped through
`APP_MODE_TO_TYPE`, falling back to `workflow`. -/
def resolveAppType (modeOf : String → Option String) (appType : Option AppType)
    (dsl : String) : AppType :=
  match appType with
  | some t => t
  | none =>
    match modeOf dsl with
    | some mode => (APP_MODE_TO_TYPE mode).getD .workflow
    | none => .workflow

/-- The `.sync.yml` record written by `saveAppDsl`. -/
def mkSyncMetadata (hash : String → String) (modeOf : String → Option String)
    (appId : String) (appType : Option AppType) (role : Option String)
    (ro : Option Bool) (remoteUpdatedAt dsl now : String) : SyncMetadata :=
  { app_id := appId
    app_type := resolveAppType modeOf appType dsl
    role := role
    readonly := ro
    last_synced_at := now
    remote_updated_at := remoteUpdatedAt
    local_hash := hash dsl }

/-- `ConfigManager.saveAppDsl`: write `app.yml` and `.sync.yml` under
`studio/<sanitizeName(appName)>`, creating or overwriting the directory.
`now` stands for `new Date().toISOString()`. -/
def saveAppDsl (hash : String → String) (modeOf : String → Option String)
    (studio : List (String × AppDir)) (appId appName dsl remoteUpdatedAt : String)
    (appType : Option AppType) (role : Option String) (ro : Option Bool)
    (now : String) : List (String × AppDir) :=
  insertA studio (sanitizeName appName)
    ⟨some dsl, some (mkSyncMetadata hash modeOf appId appType role ro remoteUpdatedAt dsl now)⟩

/-- `ConfigManager.getAppsForWorkspace`, restricted to the fields the pull
uses: the directory name and `syncMetadata?.app_id || ''` of every
directory that has an `app.yml`. -/
def listApps (studio : List (String × AppDir)) : List (String × String) :=
  studio.filterMap (fun e => if e.2.dsl.isSome then some (e.1, idOf e.2) else none)

/-! ### Pull Reconciler (`CommandHandler.pullWorkspaceData`) -/

/-- One remote app as returned by `getAllApps` together with its exported
DSL (`exportApp`), assuming the export succeeds. -/
structure RemoteApp : Type where
  id : String
  name : String
  dsl : String
  updatedAt : String
  appType : AppType
  role : Option String
  readonly : Option Bool
  deriving DecidableEq

def remoteIdsOf (apps : List RemoteApp) : List String := apps.map (·.id)

/-- The app directory written for a fetched remote app. -/
def pulledDir (hash : String → String) (modeOf : String → Option String)
    (a : RemoteApp) (now : String) : AppDir :=
  ⟨some a.dsl,
   some (mkSyncMetadata hash modeOf a.id (some a.appType) a.role a.readonly a.updatedAt a.dsl now)⟩

/-- The `for (const app of apps)` export-and-save loop of
`pullWorkspaceData`. -/
def upsertApps (hash : String → String) (modeOf : String → Option String)
    (studio : List (String × AppDir)) (apps : List RemoteApp) (now : String) :
    List (String × AppDir) :=
  apps.foldl
    (fun s a => saveAppDsl hash modeOf s a.id a.name a.dsl a.updatedAt
      (some a.appType) a.role a.readonly now)
    studio

/-- The deletion test of the `for (const localApp of localApps)` pass:
`snapId` is the id captured in the pre-pull listing, `cur` the app directory
currently on disk (re-read by `getAppSyncMetadata` when the captured id is
empty). -/
def delCond (apps : List RemoteApp) (n snapId : String) (cur : Option AppDir) : Bool :=
  let appId := if snapId = "" then
      (match cur with
       | some a => idOf a
       | none => "")
    else snapId
  if appId = "" then !(apps.any (fun a => a.name == n))
  else !((remoteIdsOf apps).contains appId)

/-- One step of the deletion pass over the pre-pull app listing. -/
def deleteStep (apps : List RemoteApp) (studio : List (String × AppDir))
    (e : String × String) : List (String × AppDir) :=
  if delCond apps e.1 e.2 (lookupA studio e.1) then eraseA studio e.1 else studio

/-- The app part of `CommandHandler.pullWorkspaceData`: list local apps,
save every fetched remote app, then delete the local apps that no longer
exist on the remote (by id, falling back to name for orphans). -/
def pullStudio (hash : String → String) (modeOf : String → Option String)
    (studio : List (String × AppDir)) (apps : List RemoteApp) (now : String) :
    List (String × AppDir) :=
  let localApps := listApps studio
  let studio1 := upsertApps hash modeOf studio apps now
  localApps.foldl (deleteStep apps) studio1

/-- A remote knowledge document as returned by `getDatasetDocuments` +
`getDocumentSegments`. -/
structure RemoteDoc : Type where
  id : String
  name : String
  segments : List Segment

/-- The remote side seen by one workspace pull (every call assumed to
succeed). -/
structure RemoteEnv : Type where
  apps : List RemoteApp
  modelsRegDump : String
  knowledgeRegDump : String
  toolsRegDump : String
  pluginsRegDump : String
  knowledgeIds : List String
  docsFor : String → List RemoteDoc

/-- A registry file (`models.yml`, `knowledge.yml`, `tools.yml`,
`plugins.yml`): `getAllModels` / `getAllKnowledge` / `getAllTools` /
`getAllPlugins` stamp `last_synced_at: new Date().toISOString()` into the
registry object before it is dumped, so the written file carries the pull's
wall-clock time alongside the payload. -/
structure RegFile : Type where
  last_synced_at : String
  body : String
  deriving DecidableEq

/-- The full local state of one workspace directory. -/
structure WorkspaceState : Type where
  studio : List (String × AppDir)
  knowledge : List (String × KbDir)
  modelsReg : Option RegFile
  knowledgeReg : Option RegFile
  toolsReg : Option RegFile
  pluginsReg : Option RegFile

/-- `ConfigManager.getSyncedKnowledgeBases`: the `(dataset_id, dataset_name)`
of every dataset directory that has a `.sync.yml`. -/
def listSyncedKbs (km : List (String × KbDir)) : List (String × String) :=
  km.filterMap (fun e =>
    match e.2.syncMeta with
    | some m => some (m.dataset_id, m.dataset_name)
    | none => none)

/-- The `documentsWithContent` built inside `pullWorkspaceData`: content is
the `'\n\n'` join of the segment contents. -/
def docsWithContent (docs : List RemoteDoc) : List DocInput :=
  docs.map (fun d => ⟨d.id, d.name, joinNN (d.segments.map (·.content)), d.segments⟩)

/-- The synced-knowledge-base refresh loop of `pullWorkspaceData`: every
already-synced dataset that still exists in the fetched registry is re-pulled
through `saveKnowledgeDocuments` (with the default `chunkOverlap` of 50). -/
def pullKnowledgeDocs (km : List (String × KbDir)) (env : RemoteEnv) (now : String) :
    List (String × KbDir) :=
  (listSyncedKbs km).foldl
    (fun k kb =>
      if env.knowledgeIds.contains kb.1 then
        saveKnowledgeDocuments k kb.1 kb.2 (docsWithContent (env.docsFor kb.1)) 50 now
      else k)
    km

/-- `CommandHandler.pullWorkspaceData`: pull all apps (upsert + deletion
pass), overwrite the models/knowledge/tools/plugins registries — each
registry object freshly stamped with `last_synced_at := now` by its
`getAll*` producer before being dumped — and refresh every already-synced
knowledge base. -/
def pullWorkspaceData (hash : String → String) (modeOf : String → Option String)
    (st : WorkspaceState) (env : RemoteEnv) (now : String) : WorkspaceState :=
  { studio := pullStudio hash modeOf st.studio env.apps now
    knowledge := pullKnowledgeDocs st.knowledge env now
    modelsReg := some ⟨now, env.modelsRegDump⟩
    knowledgeReg := some ⟨now, env.knowledgeRegDump⟩
    toolsReg := some ⟨now, env.toolsRegDump⟩
    pluginsReg := some ⟨now, env.pluginsRegDump⟩ }

/-! ### Account-level pull (`CommandHandler.pullAccountData`), workspace
directories only.  The per-workspace inner pull touches only the workspace's
own subdirectories, not the `.workspace.yml` records modelled here. -/

/-- A `.workspace.yml` record. -/
structure WsConfig : Type where
  id : String
  name : String
  role : String
  deriving DecidableEq

/-- A remote workspace from `getWorkspaces`. -/
structure RemoteWs : Type where
  id : String
  name : String
  role : String
  deriving DecidableEq

/-- `ConfigManager.saveWorkspace`: create or overwrite the directory named
`sanitizeName(workspaceName)` and write its `.workspace.yml`. -/
def saveWorkspace (acct : List (String × WsConfig)) (wsId wsName role : String) :
    List (String × WsConfig) :=
  insertA acct (sanitizeName wsName) ⟨wsId, wsName, role⟩

/-- The workspace-directory part of `CommandHandler.pullAccountData`:
snapshot the local workspaces, `saveWorkspace` every remote workspace, then
delete every snapshotted workspace whose id is not among the remote ids. -/
def pullAccountWorkspaces (acct : List (String × WsConfig)) (remote : List RemoteWs) :
    List (String × WsConfig) :=
  let localWorkspaces := acct.map (fun e => (e.1, e.2.id))
  let s1 := remote.foldl (fun s w => saveWorkspace s w.id w.name w.role) acct
  localWorkspaces.foldl
    (fun s e => if (remote.map (·.id)).contains e.2 then s else eraseA s e.1)
    s1

/-! ### `ConfigManager.renameApp` -/

/-- `ConfigManager.renameApp` on the studio map: compute the sanitized
target name; if unchanged, do nothing; if the target directory already
exists, delete the source directory and return the existing target path;
otherwise move the directory.  Returns the new map and the returned path. -/
def renameApp (studio : List (String × AppDir)) (appName newName : String) :
    List (String × AppDir) × String :=
  let safeName := sanitizeName newName
  if appName = safeName then (studio, appName)
  else if (lookupA studio safeName).isSome then (eraseA studio appName, safeName)
  else
    match lookupA studio appName with
    | some a => (insertA (eraseA studio appName) safeName a, safeName)
    | none => (studio, safeName)

/-! ### Push Reconciler (`CommandHandler.pushApp`, `pushLocalOnlyApp`) -/

/-- The fields of `AppNodeData` the push uses; `name` is the studio
directory name. -/
structure AppNodeData : Type where
  id : String
  name : String
  appType : AppType
  readonly : Bool
  role : Option String
  deriving DecidableEq

/-- The user's answer to the conflict dialog
(`'Pull First' | 'Force Push' | 'Cancel'`). -/
inductive ConflictChoice : Type
  | pullFirst
  | forcePush
  | cancel
  deriving DecidableEq

/-- A `getAppDetail` result. -/
structure AppDetail : Type where
  name : String
  updatedAt : String
  deriving DecidableEq

/-- An `exportApp` result. -/
structure ExportResult : Type where
  dsl : String
  updatedAt : String
  deriving DecidableEq

/-- The environment of one push invocation: the stored password, the
results every remote call would return, and the user's dialog answers.
`appDetailPre` is the `getAppDetail` made before the import (conflict
check), `appDetailPost` the one made after it. -/
structure PushEnv : Type where
  password : Option String
  loginOk : Bool
  appDetailPre : AppDetail
  appDetailPost : AppDetail
  exportResult : ExportResult
  createdAppId : String
  conflictChoice : ConflictChoice
  createConfirmed : Bool
  now : String

/-- A remote call issued during a push, in order. -/
inductive RemoteCall : Type
  | login
  | getAppDetail (appId : String)
  | importApp (appId : String) (dsl : String)
  | createApp (name : String)
  | exportApp (appId : String)
  deriving DecidableEq

/-- How a push invocation ended. -/
inductive PushOutcome : Type
  | rejectedReadonly
  | rejectedUnsupported
  | cancelled
  | pulledFirst
  | pushed
  | errored
  deriving DecidableEq

/-- The observable result of one push invocation. -/
structure PushResult : Type where
  calls : List RemoteCall
  outcome : PushOutcome
  conflictPrompted : Bool
  deriving DecidableEq

def isImportCall : RemoteCall → Bool
  | .importApp _ _ => true
  | _ => false

/-- `!data.id || data.id.startsWith('local-') || data.id.trim() === ''`. -/
def isLocalOnlyId (id : String) : Bool :=
  id = "" || jsStartsWith id "local-" || jsTrim id = ""

/-- `ConfigManager.updateSyncMetadata` with the partial record written after
an import: all fields except `role`/`readonly` are replaced, the rest of the
existing record (or the all-empty default) is kept. -/
def updateSyncMetadataAt (studio : List (String × AppDir)) (name appId : String)
    (appType : AppType) (now remoteUpdatedAt localHash : String) :
    List (String × AppDir) :=
  let prev : AppDir := (lookupA studio name).getD ⟨none, none⟩
  let cur : SyncMetadata := prev.syncMeta.getD
    { app_id := "", app_type := .workflow, role := none, readonly := none,
      last_synced_at := "", remote_updated_at := "", local_hash := "" }
  let updated : SyncMetadata :=
    { cur with app_id := appId, app_type := appType, last_synced_at := now,
               remote_updated_at := remoteUpdatedAt, local_hash := localHash }
  insertA studio name { prev with syncMeta := some updated }

/-- Writing `app.yml` at a directory (the direct `writeFile` after a push). -/
def writeDslAt (studio : List (String × AppDir)) (name dsl : String) :
    List (String × AppDir) :=
  let prev : AppDir := (lookupA studio name).getD ⟨none, none⟩
  insertA studio name { prev with dsl := some dsl }

/-- The tail every successful push shares (`pushApp` after `importApp`,
`pushLocalOnlyApp` after `createApp`/`importApp`/`exportApp`): rename the
directory when the remote canonical name differs, overwrite `app.yml` with
the fresh export, and update the sync metadata with the given app id. -/
def pushFinalize (hash : String → String) (studio : List (String × AppDir))
    (data : AppNodeData) (env : PushEnv) (appId : String) (detail : AppDetail) :
    List (String × AppDir) :=
  let renamed :=
    if detail.name ≠ data.name then renameApp studio data.name detail.name
    else (studio, data.name)
  let studio2 := writeDslAt renamed.1 renamed.2 env.exportResult.dsl
  updateSyncMetadataAt studio2 renamed.2 appId data.appType env.now
    env.exportResult.updatedAt (hash env.exportResult.dsl)

/-- `CommandHandler.pushLocalOnlyApp`: read the local DSL, authenticate,
create the app on the remote, import the DSL into the created app, re-export,
fetch the detail, then finalize locally with the newly assigned id. -/
def pushLocalOnlyApp (hash : String → String) (studio : List (String × AppDir))
    (data : AppNodeData) (env : PushEnv) : List (String × AppDir) × PushResult :=
  match (lookupA studio data.name).bind (·.dsl) with
  | none => (studio, ⟨[], .errored, false⟩)
  | some dsl =>
    match env.password with
    | none => (studio, ⟨[], .errored, false⟩)
    | some _ =>
      if !env.loginOk then (studio, ⟨[.login], .errored, false⟩)
      else
        let newId := env.createdAppId
        let calls : List RemoteCall :=
          [.login, .createApp data.name, .importApp newId dsl,
           .exportApp newId, .getAppDetail newId]
        (pushFinalize hash studio data env newId env.appDetailPost,
         ⟨calls, .pushed, false⟩)

/-- The `withProgress` body of `CommandHandler.pushApp` for an app with a
usable remote id: read the DSL, authenticate, import, fetch the detail,
re-export, finalize locally. -/
def pushAppBody (hash : String → String) (studio : List (String × AppDir))
    (data : AppNodeData) (env : PushEnv) (preCalls : List RemoteCall)
    (prompted : Bool) : List (String × AppDir) × PushResult :=
  match (lookupA studio data.name).bind (·.dsl) with
  | none => (studio, ⟨preCalls, .errored, prompted⟩)
  | some dsl =>
    match env.password with
    | none => (studio, ⟨preCalls, .errored, prompted⟩)
    | some _ =>
      if !env.loginOk then (studio, ⟨preCalls ++ [.login], .errored, prompted⟩)
      else
        let calls := preCalls ++
          [.login, .importApp data.id dsl, .getAppDetail data.id, .exportApp data.id]
        (pushFinalize hash studio data env data.id env.appDetailPost,
         ⟨calls, .pushed, prompted⟩)

/-- `CommandHandler.pullApp` as invoked by the 'Pull First' answer:
re-export the app and save it through `saveAppDsl` (assuming password and
login succeed — both were checked in the conflict branch). -/
def pullAppAfterConflict (hash : String → String) (modeOf : String → Option String)
    (studio : List (String × AppDir)) (data : AppNodeData) (env : PushEnv) :
    List (String × AppDir) × List RemoteCall :=
  if env.loginOk then
    (saveAppDsl hash modeOf studio data.id data.name env.exportResult.dsl
       env.exportResult.updatedAt (some data.appType) data.role (some data.readonly)
       env.now,
     [.login, .exportApp data.id])
  else (studio, [.login])

/-- `CommandHandler.pushApp`: reject read-only apps, reject app types other
than workflow/chatflow before any remote call, route local-only ids through
`pushLocalOnlyApp` (after confirmation), otherwise run the conflict check
against the recorded `remote_updated_at` and push. -/
def pushApp (hash : String → String) (modeOf : String → Option String)
    (studio : List (String × AppDir)) (data : AppNodeData) (env : PushEnv) :
    List (String × AppDir) × PushResult :=
  if data.readonly then (studio, ⟨[], .rejectedReadonly, false⟩)
  else if !(data.appType = .workflow || data.appType = .chatflow) then
    (studio, ⟨[], .rejectedUnsupported, false⟩)
  else if isLocalOnlyId data.id then
    if env.createConfirmed then pushLocalOnlyApp hash studio data env
    else (studio, ⟨[], .cancelled, false⟩)
  else
    match (lookupA studio data.name).bind (·.syncMeta), env.password with
    | some m, some _ =>
      let preCalls : List RemoteCall := [.login, .getAppDetail data.id]
      if env.appDetailPre.updatedAt ≠ m.remote_updated_at then
        match env.conflictChoice with
        | .pullFirst =>
          let pulled := pullAppAfterConflict hash modeOf studio data env
          (pulled.1, ⟨preCalls ++ pulled.2, .pulledFirst, true⟩)
        | .cancel => (studio, ⟨preCalls, .cancelled, true⟩)
        | .forcePush => pushAppBody hash studio data env preCalls true
      else pushAppBody hash studio data env preCalls false
    | _, _ => pushAppBody hash studio data env [] false

/-! ### Claim C1: the status law -/

/-- C1: for an App whose `app.yml` exists, `getAppSyncStatus` returns
`synced` iff a `.sync.yml` record exists and the hash of the current
`app.yml` content equals its `local_hash`; in particular it returns
`local-modified` when no sync metadata exists and when the hash differs. -/
theorem C1_sync_status_law (hash : String → String) (a : AppDir) (d : String)
    (h : a.dsl = some d) :
    (getAppSyncStatus hash a = .synced ↔
      ∃ m, a.syncMeta = some m ∧ hash d = m.local_hash)
    ∧ (a.syncMeta = none → getAppSyncStatus hash a = .localModified)
    ∧ (∀ m, a.syncMeta = some m → hash d ≠ m.local_hash →
        getAppSyncStatus hash a = .localModified) := by
  cases hm : a.syncMeta with
  | none =>
    refine ⟨?_, fun _ => ?_, fun m hm' _ => ?_⟩
    · simp [getAppSyncStatus, hm]
    · simp [getAppSyncStatus, hm]
    · exact absurd hm' (by simp)
  | some m =>
    refine ⟨?_, fun hnone => ?_, fun m' hm' hne => ?_⟩
    · by_cases hh : hash d = m.local_hash
      · simp [getAppSyncStatus, hm, h, hh]
      · simp [getAppSyncStatus, hm, h, hh]
    · exact absurd hnone (by simp)
    · have hmm : m = m' := by injection hm'
      subst hmm
      simp [getAppSyncStatus, hm, h, hne]

/-- Witness for C1 at a concrete app directory whose content hash matches
its recorded `local_hash` (and, inside the same instance, the mismatch case). -/
theorem C1_sync_status_law_witness :
    getAppSyncStatus (fun s => s)
      ⟨some "content", some ⟨"id1", .workflow, none, none, "t", "u", "content"⟩⟩ = .synced
    ∧ getAppSyncStatus (fun s => s)
      ⟨some "edited", some ⟨"id1", .workflow, none, none, "t", "u", "content"⟩⟩
        = .localModified := by
  constructor
  · exact (C1_sync_status_law (fun s => s)
      ⟨some "content", some ⟨"id1", .workflow, none, none, "t", "u", "content"⟩⟩
      "content" rfl).1.mpr ⟨_, rfl, rfl⟩
  · exact (C1_sync_status_law (fun s => s)
      ⟨some "edited", some ⟨"id1", .workflow, none, none, "t", "u", "content"⟩⟩
      "edited" rfl).2.2 _ rfl (by decide)

/-! ### Claim C10: `renameApp` onto an existing target -/

/-- C10: when the sanitized new name resolves to a different, already
existing app directory, `renameApp` deletes the source directory (content
and sync metadata with it), leaves the pre-existing target untouched (no
merge), and returns the pre-existing target path. -/
theorem C10_renameApp_collision (studio : List (String × AppDir))
    (appName newName : String) (b : AppDir)
    (h1 : appName ≠ sanitizeName newName)
    (h2 : lookupA studio (sanitizeName newName) = some b) :
    renameApp studio appName newName = (eraseA studio appName, sanitizeName newName)
    ∧ lookupA (renameApp studio appName newName).1 appName = none
    ∧ lookupA (renameApp studio appName newName).1 (sanitizeName newName) = some b := by
  have hsome : (lookupA studio (sanitizeName newName)).isSome := by rw [h2]; rfl
  have heq : renameApp studio appName newName
      = (eraseA studio appName, sanitizeName newName) := by
    simp [renameApp, h1, hsome]
  refine ⟨heq, ?_, ?_⟩
  · rw [heq]
    exact lookupA_eraseA_self _ _
  · rw [heq]
    rw [lookupA_eraseA_ne _ _ _ (fun hh => h1 hh.symm)]
    exact h2

/-- Witness for C10: renaming `A` onto the already existing directory `B`
deletes `A` and returns `B`, with `B`'s content untouched. -/
theorem C10_renameApp_collision_witness :
    renameApp [("A", ⟨some "a-dsl", none⟩), ("B", ⟨some "b-dsl", none⟩)] "A" "B"
      = ([("B", ⟨some "b-dsl", none⟩)], "B")
    ∧ lookupA (renameApp [("A", ⟨some "a-dsl", none⟩), ("B", ⟨some "b-dsl", none⟩)] "A" "B").1
        "A" = none := by
  have h := C10_renameApp_collision
    [("A", ⟨some "a-dsl", none⟩), ("B", ⟨some "b-dsl", none⟩)] "A" "B"
    ⟨some "b-dsl", none⟩ (by decide) (by decide)
  refine ⟨?_, h.2.1⟩
  rw [h.1]
  decide

/-! ### Claim C8: push of a non-workflow/chatflow app -/

/-- C8: a push invoked on a (non-read-only) app whose type is neither
`workflow` nor `chatflow` is rejected immediately with the unsupported-type
guidance warning, the studio is untouched and no remote call is made. -/
theorem C8_push_unsupported_rejected (hash : String → String)
    (modeOf : String → Option String) (studio : List (String × AppDir))
    (data : AppNodeData) (env : PushEnv)
    (hro : data.readonly = false)
    (ht : data.appType ≠ .workflow) (ht2 : data.appType ≠ .chatflow) :
    pushApp hash modeOf studio data env = (studio, ⟨[], .rejectedUnsupported, false⟩) := by
  simp [pushApp, hro, ht, ht2]

/-- Witness for C8: pushing a concrete `chatbot` app makes no remote call
and is rejected as unsupported. -/
theorem C8_push_unsupported_rejected_witness :
    pushApp (fun s => s) (fun _ => none)
      [("Bot", ⟨some "bot-dsl", none⟩)]
      ⟨"id-bot", "Bot", .chatbot, false, none⟩
      ⟨some "pw", true, ⟨"Bot", "u1"⟩, ⟨"Bot", "u1"⟩, ⟨"d", "u1"⟩, "newid", .forcePush, true, "t"⟩
      = ([("Bot", ⟨some "bot-dsl", none⟩)], ⟨[], .rejectedUnsupported, false⟩) :=
  C8_push_unsupported_rejected (fun s => s) (fun _ => none) _ _ _ rfl
    (by decide) (by decide)

/-! ### Claim C4: the Knowledge Merge Engine on Scenario B -/

/-- The three segments of Scenario B. -/
def scenarioBSegments : List Segment :=
  [⟨"s1", 0, "The quick brown fox"⟩,
   ⟨"s2", 1, " brown fox jumps"⟩,
   ⟨"s3", 2, " jumps over the dog"⟩]

/-- Scenario B as one remote document (named `doc`, saved as `doc.txt`). -/
def scenarioBDoc : DocInput := ⟨"d1", "doc", "", scenarioBSegments⟩

/-- C4 counterexample: running `saveKnowledgeDocuments` (with its default
`chunkOverlap` of 50) on the three segments of Scenario B produces
`"The quick brown fox\n\n jumps\n\n over the dog"` — the source inserts the
`'\n\n'` paragraph break even when an overlap is found — so the merged
document does **not** equal `"The quick brown fox jumps over the dog"`. -/
theorem C4_counterexample :
    ((lookupA (saveKnowledgeDocuments [] "ds1" "KB" [scenarioBDoc] 50 "t0") "KB").map
        (fun dir => lookupA dir.files "doc.txt"))
      = some (some "The quick brown fox\n\n jumps\n\n over the dog")
    ∧ mergeSegments 50 scenarioBSegments ≠ "The quick brown fox jumps over the dog" := by
  constructor
  · decide
  · decide

/-- C4 (amended): the stitching sorts by position, seeds the output with the
first segment verbatim, and appends a `'\n\n'` paragraph break followed by
the non-overlapping remainder when a prefix of the segment matches a suffix
of the bounded tail window (the full segment otherwise); on Scenario B the
merged document is `"The quick brown fox\n\n jumps\n\n over the dog"`,
starting with the first segment verbatim and with no duplicated
`"brown fox"` or `"jumps"`. -/
theorem C4_merge_scenarioB :
    mergeSegments 50 scenarioBSegments = "The quick brown fox\n\n jumps\n\n over the dog"
    ∧ jsStartsWith (mergeSegments 50 scenarioBSegments) "The quick brown fox" = true
    ∧ countSubstr (mergeSegments 50 scenarioBSegments) "brown fox" = 1
    ∧ countSubstr (mergeSegments 50 scenarioBSegments) "jumps" = 1
    ∧ ((lookupA (saveKnowledgeDocuments [] "ds1" "KB" [scenarioBDoc] 50 "t0") "KB").map
        (fun dir => lookupA dir.files "doc.txt"))
      = some (some (mergeSegments 50 scenarioBSegments)) := by
  refine ⟨by decide, by decide, by decide, by decide, by decide⟩

/-! ### Claim C9: the local-first law for Knowledge documents -/

/-- `saveKbFiles` never touches an existing file: the write loop skips every
file name that is already present. -/
theorem lookupA_saveKbFiles_of_some (chunkOverlap : Nat)
    (files : List (String × String)) (docs : List DocInput) (fname c : String)
    (h : lookupA files fname = some c) :
    lookupA (saveKbFiles chunkOverlap files docs) fname = some c := by
  induction docs generalizing files with
  | nil => simpa [saveKbFiles] using h
  | cons d ds ih =>
    by_cases hfn : (lookupA files (docFileName d.name)).isSome = true
    · have hstep : saveKbFiles chunkOverlap files (d :: ds)
          = saveKbFiles chunkOverlap files ds := by
        simp only [saveKbFiles, List.foldl_cons]
        rw [if_pos hfn]
      rw [hstep]
      exact ih files h
    · have hstep : saveKbFiles chunkOverlap files (d :: ds)
          = saveKbFiles chunkOverlap
              (insertA files (docFileName d.name) (mergeDocContent chunkOverlap d)) ds := by
        simp only [saveKbFiles, List.foldl_cons]
        rw [if_neg hfn]
      rw [hstep]
      apply ih
      by_cases heq : docFileName d.name = fname
      · rw [heq, h] at hfn
        simp at hfn
      · rw [lookupA_insertA_ne _ _ _ _ (fun hh => heq hh.symm)]
        exact h

/-- One `saveKnowledgeDocuments` call leaves every pre-existing document
file (at any dataset directory) byte-for-byte unchanged. -/
theorem saveKnowledgeDocuments_preserves_file (km : List (String × KbDir))
    (datasetId datasetName : String) (docs : List DocInput) (ov : Nat) (now : String)
    (n : String) (dir : KbDir) (fname c : String)
    (h1 : lookupA km n = some dir) (h2 : lookupA dir.files fname = some c) :
    ∃ dir2, lookupA (saveKnowledgeDocuments km datasetId datasetName docs ov now) n
        = some dir2
      ∧ lookupA dir2.files fname = some c := by
  by_cases hk : sanitizeName datasetName = n
  · refine ⟨kbDirAfterSave dir datasetId datasetName docs ov now, ?_, ?_⟩
    · simp only [saveKnowledgeDocuments, hk, h1, Option.getD_some]
      exact lookupA_insertA_self _ _ _
    · simpa [kbDirAfterSave] using lookupA_saveKbFiles_of_some ov dir.files docs fname c h2
  · refine ⟨dir, ?_, h2⟩
    simp only [saveKnowledgeDocuments]
    rw [lookupA_insertA_ne _ _ _ _ (fun hh => hk hh.symm)]
    exact h1

/-- Every step of the synced-knowledge-base refresh loop preserves existing
document files. -/
theorem pullKbFold_preserves_file (env : RemoteEnv) (now : String)
    (kbs : List (String × String)) (km : List (String × KbDir)) (n : String)
    (dir : KbDir) (fname c : String)
    (h1 : lookupA km n = some dir) (h2 : lookupA dir.files fname = some c) :
    ∃ dir2,
      lookupA (kbs.foldl (fun k kb =>
          if env.knowledgeIds.contains kb.1 then
            saveKnowledgeDocuments k kb.1 kb.2 (docsWithContent (env.docsFor kb.1)) 50 now
          else k) km) n = some dir2
      ∧ lookupA dir2.files fname = some c := by
  induction kbs generalizing km dir with
  | nil => exact ⟨dir, h1, h2⟩
  | cons kb kbs ih =>
    simp only [List.foldl_cons]
    by_cases hc : env.knowledgeIds.contains kb.1 = true
    · rw [if_pos hc]
      obtain ⟨dir1, hd1, hd2⟩ := saveKnowledgeDocuments_preserves_file km kb.1
        kb.2 (docsWithContent (env.docsFor kb.1)) 50 now n dir fname c h1 h2
      exact ih _ dir1 hd1 hd2
    · rw [if_neg hc]
      exact ih km dir h1 h2

/-- C9: any document file that exists before a Pull is byte-for-byte
unchanged after the Pull, whatever the fetched remote segments are. -/
theorem C9_pull_preserves_local_documents (hash : String → String)
    (modeOf : String → Option String) (st : WorkspaceState) (env : RemoteEnv)
    (now : String) (n : String) (dir : KbDir) (fname c : String)
    (h1 : lookupA st.knowledge n = some dir)
    (h2 : lookupA dir.files fname = some c) :
    ∃ dir2, lookupA (pullWorkspaceData hash modeOf st env now).knowledge n = some dir2
      ∧ lookupA dir2.files fname = some c := by
  have h := pullKbFold_preserves_file env now (listSyncedKbs st.knowledge)
    st.knowledge n dir fname c h1 h2
  simpa only [pullWorkspaceData, pullKnowledgeDocs] using h

/-- Witness for C9: a dataset with a locally edited `doc.txt` keeps its
content through a pull whose remote segments differ. -/
theorem C9_pull_preserves_local_documents_witness :
    ∃ dir2,
      lookupA (pullWorkspaceData (fun s => s) (fun _ => none)
        ⟨[], [("KB", ⟨[("doc.txt", "my local edit")],
          some ⟨"ds1", "KB", "t0", 1, [⟨"d1", "doc", "doc.txt", some 3, false⟩]⟩⟩)],
         none, none, none, none⟩
        ⟨[], "m", "k", "t", "p", ["ds1"],
         fun _ => [⟨"d1", "doc", [⟨"s1", 0, "completely different remote"⟩]⟩]⟩
        "t1").knowledge "KB" = some dir2
      ∧ lookupA dir2.files "doc.txt" = some "my local edit" :=
  C9_pull_preserves_local_documents (fun s => s) (fun _ => none)
    ⟨[], [("KB", ⟨[("doc.txt", "my local edit")],
      some ⟨"ds1", "KB", "t0", 1, [⟨"d1", "doc", "doc.txt", some 3, false⟩]⟩⟩)],
     none, none, none, none⟩
    ⟨[], "m", "k", "t", "p", ["ds1"],
     fun _ => [⟨"d1", "doc", [⟨"s1", 0, "completely different remote"⟩]⟩]⟩
    "t1" "KB"
    ⟨[("doc.txt", "my local edit")],
     some ⟨"ds1", "KB", "t0", 1, [⟨"d1", "doc", "doc.txt", some 3, false⟩]⟩⟩
    "doc.txt" "my local edit" (by decide) (by decide)

/-! ### Claim C7: pushing a local-only app -/

/-- `updateSyncMetadata` leaves the directory with a sync record whose
identifying fields are exactly the ones just written. -/
theorem syncMeta_updateSyncMetadataAt (studio : List (String × AppDir))
    (name appId : String) (t : AppType) (now upd hsh : String) :
    ∃ m, (lookupA (updateSyncMetadataAt studio name appId t now upd hsh) name).bind
        (·.syncMeta) = some m
      ∧ m.app_id = appId ∧ m.app_type = t ∧ m.last_synced_at = now
      ∧ m.remote_updated_at = upd ∧ m.local_hash = hsh := by
  simp only [updateSyncMetadataAt]
  rw [lookupA_insertA_self]
  exact ⟨_, rfl, rfl, rfl, rfl, rfl, rfl⟩

/-- After the shared push epilogue, the sync metadata at the final app path
holds the pushed app id. -/
theorem syncMeta_pushFinalize (hash : String → String)
    (studio : List (String × AppDir)) (data : AppNodeData) (env : PushEnv)
    (appId : String) (detail : AppDetail) :
    ∃ p m, (lookupA (pushFinalize hash studio data env appId detail) p).bind
        (·.syncMeta) = some m
      ∧ m.app_id = appId := by
  obtain ⟨m, hm, hid, _⟩ := syncMeta_updateSyncMetadataAt
    (writeDslAt
      (if detail.name ≠ data.name then renameApp studio data.name detail.name
       else (studio, data.name)).1
      (if detail.name ≠ data.name then renameApp studio data.name detail.name
       else (studio, data.name)).2
      env.exportResult.dsl)
    (if detail.name ≠ data.name then renameApp studio data.name detail.name
     else (studio, data.name)).2
    appId data.appType env.now env.exportResult.updatedAt (hash env.exportResult.dsl)
  exact ⟨_, m, hm, hid⟩

/-- C7: pushing an app whose recorded remote id is absent, blank, or a
`local-` placeholder (once the creation is confirmed) first creates the app
on the remote, then imports the local content into the newly created app,
and afterwards the local sync metadata holds the remote-assigned id — not
the placeholder. -/
theorem C7_push_local_only_app (hash : String → String)
    (modeOf : String → Option String) (studio : List (String × AppDir))
    (data : AppNodeData) (env : PushEnv) (dsl : String)
    (hro : data.readonly = false)
    (ht : data.appType = .workflow ∨ data.appType = .chatflow)
    (hlocal : isLocalOnlyId data.id = true)
    (hconf : env.createConfirmed = true)
    (hdsl : (lookupA studio data.name).bind (·.dsl) = some dsl)
    (hpw : env.password.isSome = true)
    (hlogin : env.loginOk = true)
    (hreal : jsStartsWith env.createdAppId "local-" = false) :
    (pushApp hash modeOf studio data env).2.calls
      = [.login, .createApp data.name, .importApp env.createdAppId dsl,
         .exportApp env.createdAppId, .getAppDetail env.createdAppId]
    ∧ (pushApp hash modeOf studio data env).2.outcome = .pushed
    ∧ ∃ p m,
        (lookupA (pushApp hash modeOf studio data env).1 p).bind (·.syncMeta) = some m
        ∧ m.app_id = env.createdAppId
        ∧ jsStartsWith m.app_id "local-" = false := by
  obtain ⟨pw, hpw'⟩ := Option.isSome_iff_exists.mp hpw
  have happ : pushApp hash modeOf studio data env = pushLocalOnlyApp hash studio data env := by
    rcases ht with ht | ht <;> simp [pushApp, hro, ht, hlocal, hconf]
  have hbody : pushLocalOnlyApp hash studio data env
      = (pushFinalize hash studio data env env.createdAppId env.appDetailPost,
         ⟨[.login, .createApp data.name, .importApp env.createdAppId dsl,
           .exportApp env.createdAppId, .getAppDetail env.createdAppId],
          .pushed, false⟩) := by
    simp [pushLocalOnlyApp, hdsl, hpw', hlogin]
  rw [happ, hbody]
  refine ⟨rfl, rfl, ?_⟩
  obtain ⟨p, m, hm, hid⟩ :=
    syncMeta_pushFinalize hash studio data env env.createdAppId env.appDetailPost
  exact ⟨p, m, hm, hid, by rw [hid]; exact hreal⟩

/-- Witness for C7 at a concrete local-only app carrying placeholder id
`local-123`. -/
theorem C7_push_local_only_app_witness :
    (pushApp (fun s => s) (fun _ => none)
        [("Flow", ⟨some "flow-dsl", some ⟨"local-123", .workflow, none, none, "t0", "u0", "h0"⟩⟩)]
        ⟨"local-123", "Flow", .workflow, false, none⟩
        ⟨some "pw", true, ⟨"Flow", "u1"⟩, ⟨"Flow", "u1"⟩, ⟨"final-dsl", "u2"⟩,
         "real-remote-id", .forcePush, true, "t1"⟩).2.calls
      = [.login, .createApp "Flow", .importApp "real-remote-id" "flow-dsl",
         .exportApp "real-remote-id", .getAppDetail "real-remote-id"]
    ∧ ∃ p m,
        (lookupA (pushApp (fun s => s) (fun _ => none)
          [("Flow", ⟨some "flow-dsl", some ⟨"local-123", .workflow, none, none, "t0", "u0", "h0"⟩⟩)]
          ⟨"local-123", "Flow", .workflow, false, none⟩
          ⟨some "pw", true, ⟨"Flow", "u1"⟩, ⟨"Flow", "u1"⟩, ⟨"final-dsl", "u2"⟩,
           "real-remote-id", .forcePush, true, "t1"⟩).1 p).bind (·.syncMeta) = some m
        ∧ m.app_id = "real-remote-id"
        ∧ jsStartsWith m.app_id "local-" = false := by
  have h := C7_push_local_only_app (fun s => s) (fun _ => none)
    [("Flow", ⟨some "flow-dsl", some ⟨"local-123", .workflow, none, none, "t0", "u0", "h0"⟩⟩)]
    ⟨"local-123", "Flow", .workflow, false, none⟩
    ⟨some "pw", true, ⟨"Flow", "u1"⟩, ⟨"Flow", "u1"⟩, ⟨"final-dsl", "u2"⟩,
     "real-remote-id", .forcePush, true, "t1"⟩
    "flow-dsl" rfl (Or.inl rfl) (by decide) rfl (by decide) rfl rfl (by decide)
  exact ⟨h.1, h.2.2⟩

/-! ### Claim C3: the push conflict law -/

/-- C3: pushing an app that has sync metadata, when the live remote
`updated_at` differs from the recorded `remote_updated_at` (and the stored
password is available, which the fetch of the live value requires), always
surfaces the Pull First / Force Push / Cancel decision; content is imported
only under an explicit Force Push, Cancel aborts with nothing imported, and
Pull First aborts the push (pulling instead) with nothing imported. -/
theorem C3_push_conflict_law (hash : String → String)
    (modeOf : String → Option String) (studio : List (String × AppDir))
    (data : AppNodeData) (env : PushEnv) (m : SyncMetadata)
    (hro : data.readonly = false)
    (ht : data.appType = .workflow ∨ data.appType = .chatflow)
    (hnl : isLocalOnlyId data.id = false)
    (hm : (lookupA studio data.name).bind (·.syncMeta) = some m)
    (hpw : env.password.isSome = true)
    (hmis : env.appDetailPre.updatedAt ≠ m.remote_updated_at) :
    ((pushApp hash modeOf studio data env).2.conflictPrompted = true)
    ∧ ((pushApp hash modeOf studio data env).2.calls.any isImportCall = true
        → env.conflictChoice = .forcePush)
    ∧ (env.conflictChoice = .cancel →
        (pushApp hash modeOf studio data env).2.outcome = .cancelled
        ∧ (pushApp hash modeOf studio data env).2.calls.any isImportCall = false)
    ∧ (env.conflictChoice = .pullFirst →
        (pushApp hash modeOf studio data env).2.outcome = .pulledFirst
        ∧ (pushApp hash modeOf studio data env).2.calls.any isImportCall = false) := by
  obtain ⟨pw, hpw'⟩ := Option.isSome_iff_exists.mp hpw
  have hred : pushApp hash modeOf studio data env
      = (match env.conflictChoice with
         | .pullFirst =>
           ((pullAppAfterConflict hash modeOf studio data env).1,
            ⟨[.login, .getAppDetail data.id]
              ++ (pullAppAfterConflict hash modeOf studio data env).2,
             .pulledFirst, true⟩)
         | .cancel => (studio, ⟨[.login, .getAppDetail data.id], .cancelled, true⟩)
         | .forcePush =>
           pushAppBody hash studio data env [.login, .getAppDetail data.id] true) := by
    rcases ht with ht | ht <;> simp [pushApp, hro, ht, hnl, hm, hpw', hmis]
  rw [hred]
  cases hc : env.conflictChoice with
  | pullFirst =>
    cases hlog : env.loginOk <;>
      simp [pullAppAfterConflict, hlog, isImportCall]
  | cancel => simp [isImportCall]
  | forcePush =>
    cases hdsl : (lookupA studio data.name).bind (·.dsl) with
    | none => simp [pushAppBody, hdsl, isImportCall]
    | some dsl =>
      cases hlog : env.loginOk <;>
        simp [pushAppBody, hdsl, hpw', hlog, isImportCall]

/-- Witness for C3: a concrete conflicted push answered with Cancel is
prompted, cancelled, and imports nothing. -/
theorem C3_push_conflict_law_witness :
    ((pushApp (fun s => s) (fun _ => none)
        [("App", ⟨some "dsl0", some ⟨"rid", .workflow, none, none, "t0", "u0", "h0"⟩⟩)]
        ⟨"rid", "App", .workflow, false, none⟩
        ⟨some "pw", true, ⟨"App", "u1"⟩, ⟨"App", "u1"⟩, ⟨"d", "u1"⟩,
         "x", .cancel, true, "t1"⟩).2.conflictPrompted = true)
    ∧ ((pushApp (fun s => s) (fun _ => none)
        [("App", ⟨some "dsl0", some ⟨"rid", .workflow, none, none, "t0", "u0", "h0"⟩⟩)]
        ⟨"rid", "App", .workflow, false, none⟩
        ⟨some "pw", true, ⟨"App", "u1"⟩, ⟨"App", "u1"⟩, ⟨"d", "u1"⟩,
         "x", .cancel, true, "t1"⟩).2.outcome = .cancelled)
    ∧ ((pushApp (fun s => s) (fun _ => none)
        [("App", ⟨some "dsl0", some ⟨"rid", .workflow, none, none, "t0", "u0", "h0"⟩⟩)]
        ⟨"rid", "App", .workflow, false, none⟩
        ⟨some "pw", true, ⟨"App", "u1"⟩, ⟨"App", "u1"⟩, ⟨"d", "u1"⟩,
         "x", .cancel, true, "t1"⟩).2.calls.any isImportCall = false) := by
  have h := C3_push_conflict_law (fun s => s) (fun _ => none)
    [("App", ⟨some "dsl0", some ⟨"rid", .workflow, none, none, "t0", "u0", "h0"⟩⟩)]
    ⟨"rid", "App", .workflow, false, none⟩
    ⟨some "pw", true, ⟨"App", "u1"⟩, ⟨"App", "u1"⟩, ⟨"d", "u1"⟩,
     "x", .cancel, true, "t1"⟩
    ⟨"rid", .workflow, none, none, "t0", "u0", "h0"⟩
    rfl (Or.inl rfl) (by decide) (by decide) rfl (by decide)
  exact ⟨h.1, (h.2.2.1 rfl).1, (h.2.2.1 rfl).2⟩

/-! ### Characterizing the pull folds -/

/-- The last element of `l` whose key `f` equals `n` (later elements of the
fold override earlier ones). -/
def lastBy {β : Type} (f : β → String) (n : String) : List β → Option β
  | [] => none
  | b :: l =>
    match lastBy f n l with
    | some c => some c
    | none => if f b = n then some b else none

theorem lastBy_mem {β : Type} (f : β → String) (n : String) (l : List β) (b : β)
    (h : lastBy f n l = some b) : b ∈ l ∧ f b = n := by
  induction l with
  | nil => simp [lastBy] at h
  | cons x l ih =>
    simp only [lastBy] at h
    cases hl : lastBy f n l with
    | some c =>
      rw [hl] at h
      simp only [Option.some.injEq] at h
      subst h
      obtain ⟨hm, hf⟩ := ih hl
      exact ⟨List.mem_cons_of_mem _ hm, hf⟩
    | none =>
      rw [hl] at h
      by_cases hx : f x = n
      · simp only [hx, if_true, Option.some.injEq] at h
        subst h
        exact ⟨List.mem_cons_self _ _, hx⟩
      · simp [hx] at h

theorem lastBy_of_nodup {β : Type} (f : β → String) (l : List β) (b : β)
    (hnd : (l.map f).Nodup) (hb : b ∈ l) : lastBy f (f b) l = some b := by
  induction l with
  | nil => simp at hb
  | cons x l ih =>
    simp only [List.map_cons, List.nodup_cons] at hnd
    rcases List.mem_cons.mp hb with hbx | hbl
    · subst hbx
      have hnone : lastBy f (f b) l = none := by
        cases hl : lastBy f (f b) l with
        | none => rfl
        | some c =>
          obtain ⟨hm, hf⟩ := lastBy_mem f _ l c hl
          exact absurd (hf ▸ List.mem_map_of_mem f hm) hnd.1
      simp [lastBy, hnone]
    · have h := ih hnd.2 hbl
      simp [lastBy, h]

/-- Pointwise value of a fold of keyed inserts: the last write at the key
wins, otherwise the original value remains. -/
theorem foldl_insertA_lookup {α β : Type} (f : β → String) (g : β → α)
    (l : List β) (s : List (String × α)) (n : String) :
    lookupA (l.foldl (fun acc b => insertA acc (f b) (g b)) s) n
      = (match lastBy f n l with
         | some b => some (g b)
         | none => lookupA s n) := by
  induction l generalizing s with
  | nil => simp [lastBy]
  | cons b l ih =>
    simp only [List.foldl_cons]
    rw [ih]
    cases hl : lastBy f n l with
    | some c => simp [lastBy, hl]
    | none =>
      simp only [lastBy, hl]
      by_cases hb : f b = n
      · subst hb
        simp [lookupA_insertA_self]
      · simp [hb, lookupA_insertA_ne _ _ _ _ (fun hh => hb hh.symm)]

/-- Keys stay duplicate-free under a fold of inserts. -/
theorem nodup_keysA_foldl_insertA {α β : Type} (f : β → String) (g : β → α)
    (l : List β) (s : List (String × α)) (h : (keysA s).Nodup) :
    (keysA (l.foldl (fun acc b => insertA acc (f b) (g b)) s)).Nodup := by
  induction l generalizing s with
  | nil => exact h
  | cons b l ih =>
    simp only [List.foldl_cons]
    exact ih _ (nodup_keysA_insertA _ _ _ h)

/-- Pointwise value of the app upsert loop. -/
theorem lookupA_upsertApps (hash : String → String) (modeOf : String → Option String)
    (studio : List (String × AppDir)) (apps : List RemoteApp) (now n : String) :
    lookupA (upsertApps hash modeOf studio apps now) n
      = (match lastBy (fun a => sanitizeName a.name) n apps with
         | some a => some (pulledDir hash modeOf a now)
         | none => lookupA studio n) := by
  have heq : upsertApps hash modeOf studio apps now
      = apps.foldl (fun acc a => insertA acc (sanitizeName a.name)
          (pulledDir hash modeOf a now)) studio := rfl
  rw [heq, foldl_insertA_lookup (fun a => sanitizeName a.name)
    (fun a => pulledDir hash modeOf a now) apps studio n]
  cases lastBy (fun a => sanitizeName a.name) n apps <;> rfl

/-- Pointwise value of the deletion pass over the pre-pull app listing
(keys of the listing assumed duplicate-free, as directory names are). -/
theorem lookupA_deletePass (apps : List RemoteApp) (snapshot : List (String × String))
    (s : List (String × AppDir)) (n : String)
    (hnd : (snapshot.map Prod.fst).Nodup) :
    lookupA (snapshot.foldl (deleteStep apps) s) n
      = (match snapshot.find? (fun e => e.1 == n) with
         | some e => if delCond apps n e.2 (lookupA s n) then none else lookupA s n
         | none => lookupA s n) := by
  induction snapshot generalizing s with
  | nil => simp
  | cons e rest ih =>
    rcases e with ⟨en, eid⟩
    simp only [List.map_cons, List.nodup_cons] at hnd
    have hen : en ∉ rest.map Prod.fst := hnd.1
    simp only [List.foldl_cons]
    rw [ih _ hnd.2]
    by_cases he : en = n
    · subst he
      have hfind : rest.find? (fun e => e.1 == en) = none := by
        rw [List.find?_eq_none]
        intro x hx
        simp only [beq_iff_eq]
        intro hxe
        exact hen (hxe ▸ List.mem_map_of_mem Prod.fst hx)
      rw [hfind]
      simp only [List.find?_cons, beq_self_eq_true, cond_true]
      simp only [deleteStep]
      by_cases hdel : delCond apps en eid (lookupA s en) = true
      · rw [if_pos hdel, if_pos hdel]
        exact lookupA_eraseA_self _ _
      · rw [if_neg hdel, if_neg hdel]
    · have hl : lookupA (deleteStep apps s (en, eid)) n = lookupA s n := by
        simp only [deleteStep]
        by_cases hdel : delCond apps en eid (lookupA s en) = true
        · rw [if_pos hdel]
          exact lookupA_eraseA_ne _ _ _ (fun hh => he hh.symm)
        · rw [if_neg hdel]
      rw [hl]
      have hbe : (en == n) = false := by
        simp [he]
      simp only [List.find?_cons, hbe, cond_false]

/-- Keys stay duplicate-free through the deletion pass. -/
theorem nodup_keysA_deletePass (apps : List RemoteApp)
    (snapshot : List (String × String)) (s : List (String × AppDir))
    (h : (keysA s).Nodup) :
    (keysA (snapshot.foldl (deleteStep apps) s)).Nodup := by
  induction snapshot generalizing s with
  | nil => exact h
  | cons e rest ih =>
    simp only [List.foldl_cons]
    apply ih
    simp only [deleteStep]
    by_cases hdel : delCond apps e.1 e.2 (lookupA s e.1) = true
    · rw [if_pos hdel]
      exact nodup_keysA_eraseA _ _ h
    · rw [if_neg hdel]
      exact h

/-- The names in the pre-pull app listing are a sub-collection of the studio
directory names. -/
theorem listApps_keys_sublist (studio : List (String × AppDir)) :
    ((listApps studio).map Prod.fst).Sublist (keysA studio) := by
  induction studio with
  | nil => simp [listApps, keysA]
  | cons e l ih =>
    by_cases hd : e.2.dsl.isSome = true
    · simpa [listApps, keysA, hd] using List.Sublist.cons₂ e.1 ih
    · simpa [listApps, keysA, hd] using List.Sublist.cons e.1 ih

theorem nodup_listApps {studio : List (String × AppDir)}
    (hnd : (keysA studio).Nodup) : ((listApps studio).map Prod.fst).Nodup :=
  List.Nodup.sublist (listApps_keys_sublist studio) hnd

theorem listApps_cons (ek : String) (ea : AppDir) (l : List (String × AppDir)) :
    listApps ((ek, ea) :: l)
      = if ea.dsl.isSome = true then (ek, idOf ea) :: listApps l else listApps l := by
  by_cases hd : ea.dsl.isSome = true
  · simp [listApps, List.filterMap_cons, hd]
  · simp [listApps, List.filterMap_cons, hd]

/-- Connecting the pre-pull listing with the map: the listing entry found
for `n` is `(n, idOf a)` exactly when the directory `n` exists and has an
`app.yml`. -/
theorem listApps_find? (studio : List (String × AppDir)) (n : String)
    (hnd : (keysA studio).Nodup) :
    (listApps studio).find? (fun e => e.1 == n)
      = (match lookupA studio n with
         | some a => if a.dsl.isSome then some (n, idOf a) else none
         | none => none) := by
  induction studio with
  | nil => simp [listApps, lookupA]
  | cons e l ih =>
    rcases e with ⟨ek, ea⟩
    simp only [keysA, List.map_cons, List.nodup_cons] at hnd
    have hek : ek ∉ l.map Prod.fst := hnd.1
    have ihl := ih hnd.2
    rw [listApps_cons]
    by_cases he : ek = n
    · subst he
      by_cases hd : ea.dsl.isSome = true
      · rw [if_pos hd]
        simp [List.find?_cons, lookupA, hd]
      · rw [if_neg hd]
        have hfind : (listApps l).find? (fun e => e.1 == ek) = none := by
          rw [ihl, lookupA_eq_none_of_not_mem_keys hek]
        rw [hfind]
        simp [lookupA, hd]
    · by_cases hd : ea.dsl.isSome = true
      · rw [if_pos hd]
        have hbe : (ek == n) = false := by simp [he]
        simp only [List.find?_cons, hbe, cond_false]
        rw [ihl]
        simp [lookupA, he]
      · rw [if_neg hd]
        rw [ihl]
        simp [lookupA, he]

theorem contains_of_mem {l : List String} {x : String} (h : x ∈ l) :
    l.contains x = true := by
  simpa using h

theorem mem_of_contains_true {l : List String} {x : String}
    (h : l.contains x = true) : x ∈ l := by
  simpa using h

theorem not_mem_of_contains_false {l : List String} {x : String}
    (h : l.contains x = false) : x ∉ l := by
  simpa using h

/-- Pointwise value of the whole app pull: the post-upsert value survives
unless the deletion pass removes the directory. -/
theorem lookupA_pullStudio (hash : String → String) (modeOf : String → Option String)
    (studio : List (String × AppDir)) (apps : List RemoteApp) (now n : String)
    (hnd : (keysA studio).Nodup) :
    lookupA (pullStudio hash modeOf studio apps now) n
      = (match lookupA studio n with
         | some a =>
           if a.dsl.isSome then
             (if delCond apps n (idOf a)
                  (lookupA (upsertApps hash modeOf studio apps now) n)
              then none
              else lookupA (upsertApps hash modeOf studio apps now) n)
           else lookupA (upsertApps hash modeOf studio apps now) n
         | none => lookupA (upsertApps hash modeOf studio apps now) n) := by
  unfold pullStudio
  rw [lookupA_deletePass apps (listApps studio) _ n (nodup_listApps hnd)]
  rw [listApps_find? studio n hnd]
  cases hs : lookupA studio n with
  | none => rfl
  | some a =>
    by_cases hd : a.dsl.isSome = true
    · simp [hd]
    · simp [hd]

/-- `lookupA_pullStudio` specialised to a directory present in the pre-pull
listing. -/
theorem lookupA_pullStudio_of_listed (hash : String → String)
    (modeOf : String → Option String) (studio : List (String × AppDir))
    (apps : List RemoteApp) (now n : String) (a : AppDir)
    (hnd : (keysA studio).Nodup)
    (hsn : lookupA studio n = some a) (hd : a.dsl.isSome = true) :
    lookupA (pullStudio hash modeOf studio apps now) n
      = (if delCond apps n (idOf a) (lookupA (upsertApps hash modeOf studio apps now) n)
         then none
         else lookupA (upsertApps hash modeOf studio apps now) n) := by
  rw [lookupA_pullStudio hash modeOf studio apps now n hnd, hsn]
  simp [hd]

/-- `lookupA_pullStudio` specialised to a name outside the pre-pull listing. -/
theorem lookupA_pullStudio_of_unlisted (hash : String → String)
    (modeOf : String → Option String) (studio : List (String × AppDir))
    (apps : List RemoteApp) (now n : String)
    (hnd : (keysA studio).Nodup)
    (hsn : ∀ a, lookupA studio n = some a → a.dsl.isSome = false) :
    lookupA (pullStudio hash modeOf studio apps now) n
      = lookupA (upsertApps hash modeOf studio apps now) n := by
  rw [lookupA_pullStudio hash modeOf studio apps now n hnd]
  cases hs : lookupA studio n with
  | none => rfl
  | some a =>
    have hd := hsn a hs
    simp [hd]

theorem nodup_keysA_pullStudio (hash : String → String)
    (modeOf : String → Option String) (studio : List (String × AppDir))
    (apps : List RemoteApp) (now : String) (hnd : (keysA studio).Nodup) :
    (keysA (pullStudio hash modeOf studio apps now)).Nodup := by
  unfold pullStudio
  apply nodup_keysA_deletePass
  have heq : upsertApps hash modeOf studio apps now
      = apps.foldl (fun acc a => insertA acc (sanitizeName a.name)
          (pulledDir hash modeOf a now)) studio := rfl
  rw [heq]
  exact nodup_keysA_foldl_insertA _ _ apps studio hnd

/-! ### Claim C2: the pull deletion law -/

/-- C2 (amended): after a workspace pull — provided every fetched remote id
is non-empty, the sanitized remote names are pairwise distinct, no stale
local app directory shares its name with a sanitized remote name, and no
orphan directory collides with the sanitized name of a differently-named
remote app — (i) every local app whose recorded remote id is not among the
fetched ids is deleted, (ii) an orphan app (no recorded remote id) is
deleted iff no remote app bears its display name, and (iii) every fetched
remote app is present locally at its sanitized name with its exported
content and id. -/
theorem C2_pull_deletion_law_amended (hash : String → String)
    (modeOf : String → Option String) (studio : List (String × AppDir))
    (apps : List RemoteApp) (now : String)
    (hnd : (keysA studio).Nodup)
    (hids : ∀ r ∈ apps, r.id ≠ "")
    (hnames : (apps.map (fun a => sanitizeName a.name)).Nodup)
    (hstale : ∀ e ∈ studio, idOf e.2 ≠ "" →
        (remoteIdsOf apps).contains (idOf e.2) = false →
        lastBy (fun a => sanitizeName a.name) e.1 apps = none)
    (horph : ∀ e ∈ studio, idOf e.2 = "" → ∀ r ∈ apps,
        sanitizeName r.name = e.1 → r.name = e.1) :
    (∀ n a, lookupA studio n = some a → a.dsl.isSome = true → idOf a ≠ "" →
        (remoteIdsOf apps).contains (idOf a) = false →
        lookupA (pullStudio hash modeOf studio apps now) n = none)
    ∧ (∀ n a, lookupA studio n = some a → a.dsl.isSome = true → idOf a = "" →
        (lookupA (pullStudio hash modeOf studio apps now) n = none
          ↔ apps.any (fun r => r.name == n) = false))
    ∧ (∀ r ∈ apps,
        lookupA (pullStudio hash modeOf studio apps now) (sanitizeName r.name)
          = some (pulledDir hash modeOf r now)) := by
  have hup := lookupA_upsertApps hash modeOf studio apps now
  refine ⟨?_, ?_, ?_⟩
  · intro n a hsn hd hid hc
    rw [lookupA_pullStudio_of_listed hash modeOf studio apps now n a hnd hsn hd]
    have hdel : delCond apps n (idOf a)
        (lookupA (upsertApps hash modeOf studio apps now) n) = true := by
      have hnm : idOf a ∉ remoteIdsOf apps := not_mem_of_contains_false hc
      simp [delCond, hid, hnm]
    simp [hdel]
  · intro n a hsn hd hid
    rw [lookupA_pullStudio_of_listed hash modeOf studio apps now n a hnd hsn hd]
    rw [hup n]
    cases hlb : lastBy (fun a => sanitizeName a.name) n apps with
    | some r =>
      obtain ⟨hr, hsan⟩ := lastBy_mem _ _ _ _ hlb
      have hrid : r.id ≠ "" := hids r hr
      have hmem : r.id ∈ remoteIdsOf apps := List.mem_map_of_mem (·.id) hr
      have hdel : delCond apps n (idOf a) (some (pulledDir hash modeOf r now)) = false := by
        simp only [delCond, hid]
        simp [pulledDir, mkSyncMetadata, idOf, hrid, hmem]
      have hname : r.name = n := horph (n, a) (lookupA_mem hsn) hid r hr hsan
      have hany : apps.any (fun r' => r'.name == n) = true := by
        rw [List.any_eq_true]
        exact ⟨r, hr, by simp [hname]⟩
      simp [hdel, hany]
    | none =>
      have hdel : delCond apps n (idOf a) (some a)
          = !(apps.any (fun r => r.name == n)) := by
        simp [delCond, hid]
      rw [hsn, hdel]
      cases hany : apps.any (fun r => r.name == n) with
      | true => simp
      | false => simp
  · intro r hr
    have hlb : lastBy (fun a => sanitizeName a.name) (sanitizeName r.name) apps = some r :=
      lastBy_of_nodup _ apps r hnames hr
    have hrid : r.id ≠ "" := hids r hr
    have hmem : r.id ∈ remoteIdsOf apps := List.mem_map_of_mem (·.id) hr
    have hpost : lookupA (upsertApps hash modeOf studio apps now) (sanitizeName r.name)
        = some (pulledDir hash modeOf r now) := by
      rw [hup (sanitizeName r.name), hlb]
    cases hs : lookupA studio (sanitizeName r.name) with
    | none =>
      rw [lookupA_pullStudio_of_unlisted hash modeOf studio apps now _ hnd
        (fun a ha => absurd ha (by rw [hs]; simp))]
      exact hpost
    | some a =>
      by_cases hd : a.dsl.isSome = true
      · rw [lookupA_pullStudio_of_listed hash modeOf studio apps now _ a hnd hs hd]
        rw [hpost]
        by_cases hid : idOf a = ""
        · have hdel : delCond apps (sanitizeName r.name) (idOf a)
              (some (pulledDir hash modeOf r now)) = false := by
            simp only [delCond, hid]
            simp [pulledDir, mkSyncMetadata, idOf, hrid, hmem]
          simp [hdel]
        · cases hc : (remoteIdsOf apps).contains (idOf a) with
          | true =>
            have hdel : delCond apps (sanitizeName r.name) (idOf a)
                (some (pulledDir hash modeOf r now)) = false := by
              simp [delCond, hid, mem_of_contains_true hc]
            simp [hdel]
          | false =>
            have hst := hstale (sanitizeName r.name, a) (lookupA_mem hs) hid hc
            rw [hst] at hlb
            exact absurd hlb (by simp)
      · rw [lookupA_pullStudio_of_unlisted hash modeOf studio apps now _ hnd
          (fun a' ha' => by
            rw [hs] at ha'
            have haa : a = a' := by injection ha'
            subst haa
            simpa using hd)]
        exact hpost

/-- C2 counterexample: a stale local app directory (recorded id `X`, absent
from the remote) whose name `B` coincides with the sanitized name of the
fetched remote app `Y` is first overwritten by the pull's upsert and then
removed by the deletion pass — so after the pull the fetched remote app `Y`
is **not** present locally (the studio is empty), refuting the unamended
deletion law. -/
theorem C2_counterexample :
    pullStudio (fun s => s) (fun _ => none)
      [("B", ⟨some "old-dsl", some ⟨"X", .workflow, none, none, "t0", "u0", "h0"⟩⟩)]
      [⟨"Y", "B", "new-dsl", "u1", .workflow, none, none⟩] "t1" = []
    ∧ ([⟨"Y", "B", "new-dsl", "u1", .workflow, none, none⟩] : List RemoteApp) ≠ [] := by
  exact ⟨by decide, by decide⟩

/-- The Scenario A studio: `W1` previously pulled (remote id `id1`), `W3`
local-only with no recorded remote id. -/
def scenarioAStudio : List (String × AppDir) :=
  [("W1", ⟨some "w1-old", some ⟨"id1", .workflow, none, none, "t0", "u0", "h1"⟩⟩),
   ("W3", ⟨some "w3-dsl", none⟩)]

/-- The Scenario A remote: `W1` (known id) and a new app `W2`. -/
def scenarioAApps : List RemoteApp :=
  [⟨"id1", "W1", "w1-new", "u1", .workflow, none, none⟩,
   ⟨"id2", "W2", "w2-dsl", "u2", .workflow, none, none⟩]

/-- Witness for C2, Scenario A: after the pull, `W1` is updated, `W2` is
created, and `W3` (no remote app named `W3`) is deleted. -/
theorem C2_pull_deletion_law_amended_witness :
    lookupA (pullStudio (fun s => s) (fun _ => none) scenarioAStudio scenarioAApps "t1") "W1"
      = some (pulledDir (fun s => s) (fun _ => none)
          ⟨"id1", "W1", "w1-new", "u1", .workflow, none, none⟩ "t1")
    ∧ lookupA (pullStudio (fun s => s) (fun _ => none) scenarioAStudio scenarioAApps "t1") "W2"
      = some (pulledDir (fun s => s) (fun _ => none)
          ⟨"id2", "W2", "w2-dsl", "u2", .workflow, none, none⟩ "t1")
    ∧ lookupA (pullStudio (fun s => s) (fun _ => none) scenarioAStudio scenarioAApps "t1") "W3"
      = none := by
  have h := C2_pull_deletion_law_amended (fun s => s) (fun _ => none)
    scenarioAStudio scenarioAApps "t1"
    (by decide) (by decide) (by decide) (by decide) (by decide)
  have h1 := h.2.2 ⟨"id1", "W1", "w1-new", "u1", .workflow, none, none⟩ (by decide)
  have h2 := h.2.2 ⟨"id2", "W2", "w2-dsl", "u2", .workflow, none, none⟩ (by decide)
  have h3 := (h.2.1 "W3" ⟨some "w3-dsl", none⟩ (by decide) (by decide) (by decide)).mpr
    (by decide)
  have hs1 : sanitizeName "W1" = "W1" := by decide
  have hs2 : sanitizeName "W2" = "W2" := by decide
  rw [hs1] at h1
  rw [hs2] at h2
  exact ⟨h1, h2, h3⟩

/-! ### Claim C5: account-level workspace reconciliation -/

/-- C5 counterexample: a workspace renamed on the remote (same id `X`, name
`Old` → `New`) leaves **two** local workspace directories with the same
`remote_id`: `saveWorkspace` keys by sanitized name, and the deletion pass
keeps the stale `Old` directory because its recorded id is still observed
remotely.  This refutes "upserted keyed by its remote_id and never by its
name". -/
theorem C5_counterexample :
    lookupA (pullAccountWorkspaces [("Old", ⟨"X", "Old", "owner"⟩)]
        [⟨"X", "New", "owner"⟩]) "Old" = some ⟨"X", "Old", "owner"⟩
    ∧ lookupA (pullAccountWorkspaces [("Old", ⟨"X", "Old", "owner"⟩)]
        [⟨"X", "New", "owner"⟩]) "New" = some ⟨"X", "New", "owner"⟩
    ∧ ("Old" : String) ≠ "New" := by
  exact ⟨by decide, by decide, by decide⟩

/-- Pointwise value of the workspace deletion pass: an entry is erased
exactly when some snapshotted workspace with that directory name has an id
outside the remote set (the pass never reads the map, so no key-uniqueness
is needed). -/
theorem lookupA_wsDeletePass (remote : List RemoteWs)
    (snapshot : List (String × String)) (s : List (String × WsConfig)) (n : String) :
    lookupA (snapshot.foldl
        (fun s e => if (remote.map (·.id)).contains e.2 then s else eraseA s e.1) s) n
      = (if snapshot.any (fun e => e.1 == n && !((remote.map (·.id)).contains e.2))
         then none
         else lookupA s n) := by
  induction snapshot generalizing s with
  | nil => simp
  | cons e rest ih =>
    rcases e with ⟨en, eid⟩
    simp only [List.foldl_cons]
    rw [ih]
    by_cases hc : (remote.map (·.id)).contains eid = true
    · rw [if_pos hc]
      simp only [List.any_cons, hc, Bool.not_true, Bool.and_false, Bool.false_or]
    · rw [if_neg hc]
      have hcf : (remote.map (·.id)).contains eid = false := by
        simpa using hc
      by_cases he : en = n
      · subst he
        simp only [List.any_cons, hcf, Bool.not_false, beq_self_eq_true, Bool.and_true,
          Bool.true_or, if_true]
        by_cases hrest : rest.any (fun e => e.1 == en && !((remote.map (·.id)).contains e.2)) = true
        · rw [if_pos hrest]
        · rw [if_neg hrest]
          exact lookupA_eraseA_self _ _
      · have hbe : (en == n) = false := by simp [he]
        simp only [List.any_cons, hbe, Bool.false_and, Bool.false_or]
        by_cases hrest : rest.any (fun e => e.1 == n && !((remote.map (·.id)).contains e.2)) = true
        · rw [if_pos hrest, if_pos hrest]
        · rw [if_neg hrest, if_neg hrest]
          exact lookupA_eraseA_ne _ _ _ (fun hh => he hh.symm)

/-- C5 (amended): during an account pull the local workspace directory is
upserted keyed by the **sanitized remote name**, not by `remote_id` — so a
remotely renamed workspace leaves a second stale directory with the same
`remote_id` (see the counterexample) — and every snapshotted local workspace
whose recorded `remote_id` is not among the fetched ids is deleted; provided
the sanitized remote names are pairwise distinct and no such stale directory
is named like a fetched sanitized name, every fetched remote workspace is
present afterwards at its sanitized name with its id, name and role. -/
theorem C5_pull_account_workspaces_amended (acct : List (String × WsConfig))
    (remote : List RemoteWs)
    (hnames : (remote.map (fun w => sanitizeName w.name)).Nodup)
    (hstale : ∀ e ∈ acct, (remote.map (·.id)).contains e.2.id = false →
        ∀ w ∈ remote, sanitizeName w.name ≠ e.1) :
    (∀ w ∈ remote,
        lookupA (pullAccountWorkspaces acct remote) (sanitizeName w.name)
          = some ⟨w.id, w.name, w.role⟩)
    ∧ (∀ e ∈ acct, (remote.map (·.id)).contains e.2.id = false →
        lookupA (pullAccountWorkspaces acct remote) e.1 = none) := by
  have hup : ∀ n, lookupA (remote.foldl (fun s w => saveWorkspace s w.id w.name w.role) acct) n
      = (match lastBy (fun w => sanitizeName w.name) n remote with
         | some w => some (⟨w.id, w.name, w.role⟩ : WsConfig)
         | none => lookupA acct n) := by
    intro n
    have heq : remote.foldl (fun s w => saveWorkspace s w.id w.name w.role) acct
        = remote.foldl (fun s w => insertA s (sanitizeName w.name)
            (⟨w.id, w.name, w.role⟩ : WsConfig)) acct := rfl
    rw [heq, foldl_insertA_lookup (fun w => sanitizeName w.name)
      (fun w => (⟨w.id, w.name, w.role⟩ : WsConfig)) remote acct n]
    cases lastBy (fun w => sanitizeName w.name) n remote <;> rfl
  constructor
  · intro w hw
    have hlb : lastBy (fun w => sanitizeName w.name) (sanitizeName w.name) remote = some w :=
      lastBy_of_nodup _ remote w hnames hw
    show lookupA ((acct.map (fun e => (e.1, e.2.id))).foldl
        (fun s e => if (remote.map (·.id)).contains e.2 then s else eraseA s e.1)
        (remote.foldl (fun s w => saveWorkspace s w.id w.name w.role) acct))
        (sanitizeName w.name) = some ⟨w.id, w.name, w.role⟩
    rw [lookupA_wsDeletePass]
    have hany : (acct.map (fun e => (e.1, e.2.id))).any
        (fun e => e.1 == sanitizeName w.name && !((remote.map (·.id)).contains e.2)) = false := by
      rw [List.any_eq_false]
      intro e he
      obtain ⟨e0, he0, heq0⟩ := List.mem_map.mp he
      subst heq0
      simp only [Bool.and_eq_true, beq_iff_eq, Bool.not_eq_true']
      intro ⟨hn, hc⟩
      exact hstale e0 he0 hc w hw hn.symm
    rw [hany]
    simp only [if_false, Bool.false_eq_true]
    rw [hup (sanitizeName w.name), hlb]
  · intro e he hc
    show lookupA ((acct.map (fun e => (e.1, e.2.id))).foldl
        (fun s e => if (remote.map (·.id)).contains e.2 then s else eraseA s e.1)
        (remote.foldl (fun s w => saveWorkspace s w.id w.name w.role) acct)) e.1 = none
    rw [lookupA_wsDeletePass]
    have hany : (acct.map (fun e => (e.1, e.2.id))).any
        (fun x => x.1 == e.1 && !((remote.map (·.id)).contains x.2)) = true := by
      rw [List.any_eq_true]
      exact ⟨(e.1, e.2.id), List.mem_map_of_mem _ he, by
        simp only [beq_self_eq_true, Bool.true_and, hc, Bool.not_false]⟩
    rw [hany]
    simp

/-- Witness for C5 (amended) at a concrete account: remote workspace `B`
(id `Y`) is created, stale local workspace `A` (id `X`, gone remotely) is
deleted. -/
theorem C5_pull_account_workspaces_amended_witness :
    lookupA (pullAccountWorkspaces [("A", ⟨"X", "A", "owner"⟩)]
        [⟨"Y", "B", "owner"⟩]) "B" = some ⟨"Y", "B", "owner"⟩
    ∧ lookupA (pullAccountWorkspaces [("A", ⟨"X", "A", "owner"⟩)]
        [⟨"Y", "B", "owner"⟩]) "A" = none := by
  have h := C5_pull_account_workspaces_amended [("A", ⟨"X", "A", "owner"⟩)]
    [⟨"Y", "B", "owner"⟩] (by decide) (by decide)
  have h1 := h.1 ⟨"Y", "B", "owner"⟩ (by decide)
  have h2 := h.2 ("A", ⟨"X", "A", "owner"⟩) (by decide) (by decide)
  have hs : sanitizeName "B" = "B" := by decide
  rw [hs] at h1
  exact ⟨h1, h2⟩

/-! ### Claim C6: pull idempotence up to `last_synced_at` -/

/-- Erase the `last_synced_at` wall-clock field of an app sync record. -/
def stripTsMeta (m : SyncMetadata) : SyncMetadata := { m with last_synced_at := "" }

def stripTsDir (a : AppDir) : AppDir := { a with syncMeta := a.syncMeta.map stripTsMeta }

/-- Erase the `last_synced_at` wall-clock field of a knowledge sync record. -/
def stripTsKbSync (m : KbSync) : KbSync := { m with last_synced_at := "" }

def stripTsKb (k : KbDir) : KbDir := { k with syncMeta := k.syncMeta.map stripTsKbSync }

/-- Erase the `last_synced_at` wall-clock field of a registry file. -/
def stripTsReg (r : RegFile) : RegFile := { r with last_synced_at := "" }

theorem lookupA_of_mem_nodup {α : Type} {l : List (String × α)} {n : String} {a : α}
    (hnd : (keysA l).Nodup) (h : (n, a) ∈ l) : lookupA l n = some a := by
  induction l with
  | nil => simp at h
  | cons e l ih =>
    rcases e with ⟨ek, ev⟩
    simp only [keysA, List.map_cons, List.nodup_cons] at hnd
    rcases List.mem_cons.mp h with h0 | h0
    · injection h0 with h1 h2
      subst h1
      subst h2
      simp [lookupA]
    · have hne : ek ≠ n := by
        intro hh
        subst hh
        exact hnd.1 (List.mem_map_of_mem Prod.fst h0)
      simp only [lookupA, hne, if_false]
      exact ih hnd.2 h0

/-- When some remote app sanitizes onto `n`, the pull leaves the last such
app's freshly pulled directory at `n` (no stale-name collision assumed). -/
theorem lookupA_pullStudio_of_lastBy_some (hash : String → String)
    (modeOf : String → Option String) (studio : List (String × AppDir))
    (apps : List RemoteApp) (now n : String) (r : RemoteApp)
    (hnd : (keysA studio).Nodup)
    (hids : ∀ r ∈ apps, r.id ≠ "")
    (hstale : ∀ e ∈ studio, idOf e.2 ≠ "" →
        (remoteIdsOf apps).contains (idOf e.2) = false →
        lastBy (fun a => sanitizeName a.name) e.1 apps = none)
    (hlb : lastBy (fun a => sanitizeName a.name) n apps = some r) :
    lookupA (pullStudio hash modeOf studio apps now) n
      = some (pulledDir hash modeOf r now) := by
  obtain ⟨hr, hsan⟩ := lastBy_mem _ _ _ _ hlb
  have hrid : r.id ≠ "" := hids r hr
  have hmem : r.id ∈ remoteIdsOf apps := List.mem_map_of_mem (·.id) hr
  have hpost : lookupA (upsertApps hash modeOf studio apps now) n
      = some (pulledDir hash modeOf r now) := by
    rw [lookupA_upsertApps, hlb]
  cases hs : lookupA studio n with
  | none =>
    rw [lookupA_pullStudio_of_unlisted hash modeOf studio apps now n hnd
      (fun a ha => absurd ha (by rw [hs]; simp))]
    exact hpost
  | some a =>
    by_cases hd : a.dsl.isSome = true
    · rw [lookupA_pullStudio_of_listed hash modeOf studio apps now n a hnd hs hd, hpost]
      by_cases hid : idOf a = ""
      · have hdel : delCond apps n (idOf a) (some (pulledDir hash modeOf r now)) = false := by
          simp only [delCond, hid]
          simp [pulledDir, mkSyncMetadata, idOf, hrid, hmem]
        simp [hdel]
      · cases hc : (remoteIdsOf apps).contains (idOf a) with
        | true =>
          have hdel : delCond apps n (idOf a) (some (pulledDir hash modeOf r now)) = false := by
            simp [delCond, hid, mem_of_contains_true hc]
          simp [hdel]
        | false =>
          have hst := hstale (n, a) (lookupA_mem hs) hid hc
          rw [hst] at hlb
          exact absurd hlb (by simp)
    · rw [lookupA_pullStudio_of_unlisted hash modeOf studio apps now n hnd
        (fun a' ha' => by
          rw [hs] at ha'
          have haa : a = a' := by injection ha'
          subst haa
          simpa using hd)]
      exact hpost

/-- When no remote app sanitizes onto `n`, the pull acts on `n` purely by
the deletion pass over the original directory. -/
theorem lookupA_pullStudio_of_lastBy_none (hash : String → String)
    (modeOf : String → Option String) (studio : List (String × AppDir))
    (apps : List RemoteApp) (now n : String)
    (hnd : (keysA studio).Nodup)
    (hlb : lastBy (fun a => sanitizeName a.name) n apps = none) :
    lookupA (pullStudio hash modeOf studio apps now) n
      = (match lookupA studio n with
         | some a =>
           if a.dsl.isSome then
             (if delCond apps n (idOf a) (some a) then none else some a)
           else some a
         | none => none) := by
  have hpost : lookupA (upsertApps hash modeOf studio apps now) n = lookupA studio n := by
    rw [lookupA_upsertApps, hlb]
  rw [lookupA_pullStudio hash modeOf studio apps now n hnd, hpost]
  cases hs : lookupA studio n with
  | none => rfl
  | some a => rfl

/-- The app part of the pull is idempotent up to `last_synced_at`: a second
pull against the same remote changes nothing but the recorded sync time. -/
theorem pullStudio_idem (hash : String → String) (modeOf : String → Option String)
    (studio : List (String × AppDir)) (apps : List RemoteApp) (t1 t2 : String)
    (hnd : (keysA studio).Nodup)
    (hids : ∀ r ∈ apps, r.id ≠ "")
    (hstale : ∀ e ∈ studio, idOf e.2 ≠ "" →
        (remoteIdsOf apps).contains (idOf e.2) = false →
        lastBy (fun a => sanitizeName a.name) e.1 apps = none)
    (n : String) :
    (lookupA (pullStudio hash modeOf (pullStudio hash modeOf studio apps t1) apps t2) n).map
        stripTsDir
      = (lookupA (pullStudio hash modeOf studio apps t1) n).map stripTsDir := by
  have hnd1 := nodup_keysA_pullStudio hash modeOf studio apps t1 hnd
  have hstale1 : ∀ e ∈ pullStudio hash modeOf studio apps t1, idOf e.2 ≠ "" →
      (remoteIdsOf apps).contains (idOf e.2) = false →
      lastBy (fun a => sanitizeName a.name) e.1 apps = none := by
    intro e he hid hc
    cases hlb : lastBy (fun a => sanitizeName a.name) e.1 apps with
    | none => rfl
    | some r =>
      have hs1 : lookupA (pullStudio hash modeOf studio apps t1) e.1 = some e.2 :=
        lookupA_of_mem_nodup hnd1 (by rwa [show ((e.1, e.2) : String × AppDir) = e from rfl])
      rw [lookupA_pullStudio_of_lastBy_some hash modeOf studio apps t1 e.1 r
        hnd hids hstale hlb] at hs1
      have he2 : e.2 = pulledDir hash modeOf r t1 := by
        injection hs1 with h'
        exact h'.symm
      obtain ⟨hr, _⟩ := lastBy_mem _ _ _ _ hlb
      have hide : idOf e.2 = r.id := by rw [he2]; rfl
      have hcont : (remoteIdsOf apps).contains r.id = true :=
        contains_of_mem (List.mem_map_of_mem (·.id) hr)
      rw [hide, hcont] at hc
      exact absurd hc (by simp)
  cases hlb : lastBy (fun a => sanitizeName a.name) n apps with
  | some r =>
    rw [lookupA_pullStudio_of_lastBy_some hash modeOf
      (pullStudio hash modeOf studio apps t1) apps t2 n r hnd1 hids hstale1 hlb]
    rw [lookupA_pullStudio_of_lastBy_some hash modeOf studio apps t1 n r hnd hids hstale hlb]
    rfl
  | none =>
    rw [lookupA_pullStudio_of_lastBy_none hash modeOf
      (pullStudio hash modeOf studio apps t1) apps t2 n hnd1 hlb]
    rw [lookupA_pullStudio_of_lastBy_none hash modeOf studio apps t1 n hnd hlb]
    cases hs : lookupA studio n with
    | none => rfl
    | some a =>
      by_cases hd : a.dsl.isSome = true
      · by_cases hdel : delCond apps n (idOf a) (some a) = true
        · simp [hd, hdel]
        · simp [hd, hdel]
      · simp [hd]

/-- A dataset directory is well-keyed when its name is the sanitized
`dataset_name` of its own `.sync.yml` — which is how the Store creates
them. -/
def kbKeyOkB (e : String × KbDir) : Bool :=
  match e.2.syncMeta with
  | some m => e.1 == sanitizeName m.dataset_name
  | none => true

theorem kbKeyOk_of {e : String × KbDir} (h : kbKeyOkB e = true) {m : KbSync}
    (hm : e.2.syncMeta = some m) : e.1 = sanitizeName m.dataset_name := by
  simp only [kbKeyOkB, hm, beq_iff_eq] at h
  exact h

theorem listSyncedKbs_cons (k : String) (dir : KbDir) (l : List (String × KbDir)) :
    listSyncedKbs ((k, dir) :: l)
      = (match dir.syncMeta with
         | some m => (m.dataset_id, m.dataset_name) :: listSyncedKbs l
         | none => listSyncedKbs l) := by
  cases hm : dir.syncMeta with
  | none => simp [listSyncedKbs, List.filterMap_cons, hm]
  | some m => simp [listSyncedKbs, List.filterMap_cons, hm]

theorem mem_listSyncedKbs {km : List (String × KbDir)} {kb : String × String}
    (h : kb ∈ listSyncedKbs km) :
    ∃ e ∈ km, ∃ m, e.2.syncMeta = some m ∧ kb = (m.dataset_id, m.dataset_name) := by
  simp only [listSyncedKbs, List.mem_filterMap] at h
  obtain ⟨e, he, hfe⟩ := h
  cases hm : e.2.syncMeta with
  | none =>
    rw [hm] at hfe
    simp at hfe
  | some m =>
    rw [hm] at hfe
    simp only [Option.some.injEq] at hfe
    exact ⟨e, he, m, hm, hfe.symm⟩

theorem nodup_sanitized_listSyncedKbs (km : List (String × KbDir))
    (hnd : (keysA km).Nodup) (hkb : ∀ e ∈ km, kbKeyOkB e = true) :
    ((listSyncedKbs km).map (fun kb => sanitizeName kb.2)).Nodup := by
  induction km with
  | nil => simp [listSyncedKbs]
  | cons e l ih =>
    rcases e with ⟨k, dir⟩
    simp only [keysA, List.map_cons, List.nodup_cons] at hnd
    have ihl := ih hnd.2 (fun e he => hkb e (List.mem_cons_of_mem _ he))
    rw [listSyncedKbs_cons]
    cases hm : dir.syncMeta with
    | none => exact ihl
    | some m =>
      have hkey : k = sanitizeName m.dataset_name :=
        kbKeyOk_of (hkb (k, dir) (List.mem_cons_self _ _)) hm
      rw [List.map_cons, List.nodup_cons]
      refine ⟨?_, ihl⟩
      intro hmem
      obtain ⟨kb, hkbm, heq⟩ := List.mem_map.mp hmem
      obtain ⟨e', he', m', hm', hkb'⟩ := mem_listSyncedKbs hkbm
      have hkey' : e'.1 = sanitizeName m'.dataset_name :=
        kbKeyOk_of (hkb e' (List.mem_cons_of_mem _ he')) hm'
      have hsn : sanitizeName kb.2 = sanitizeName m'.dataset_name := by
        rw [hkb']
      rw [hsn, ← hkey', ← hkey] at heq
      exact hnd.1 (heq ▸ List.mem_map_of_mem Prod.fst he')

theorem listSyncedKbs_find? (km : List (String × KbDir)) (n : String)
    (hnd : (keysA km).Nodup) (hkb : ∀ e ∈ km, kbKeyOkB e = true) :
    (listSyncedKbs km).find? (fun kb => sanitizeName kb.2 == n)
      = (match lookupA km n with
         | some dir => dir.syncMeta.map (fun m => (m.dataset_id, m.dataset_name))
         | none => none) := by
  induction km with
  | nil => simp [listSyncedKbs, lookupA]
  | cons e l ih =>
    rcases e with ⟨k, dir⟩
    simp only [keysA, List.map_cons, List.nodup_cons] at hnd
    have hkl : k ∉ l.map Prod.fst := hnd.1
    have ihl := ih hnd.2 (fun e he => hkb e (List.mem_cons_of_mem _ he))
    have hrestnone : ∀ n', n' ∉ l.map Prod.fst →
        (listSyncedKbs l).find? (fun kb => sanitizeName kb.2 == n') = none := by
      intro n' hn'
      rw [List.find?_eq_none]
      intro kb hkbm
      obtain ⟨e', he', m', hm', hkb'⟩ := mem_listSyncedKbs hkbm
      have hkey' : e'.1 = sanitizeName m'.dataset_name :=
        kbKeyOk_of (hkb e' (List.mem_cons_of_mem _ he')) hm'
      simp only [beq_iff_eq]
      intro hsn
      apply hn'
      have hkb2 : sanitizeName kb.2 = e'.1 := by
        rw [hkb', ← hkey']
      rw [hkb2] at hsn
      exact hsn ▸ List.mem_map_of_mem Prod.fst he'
    rw [listSyncedKbs_cons]
    by_cases he : k = n
    · subst he
      cases hm : dir.syncMeta with
      | none =>
        rw [hrestnone k hkl]
        simp [lookupA, hm]
      | some m =>
        have hkey : k = sanitizeName m.dataset_name :=
          kbKeyOk_of (hkb (k, dir) (List.mem_cons_self _ _)) hm
        have hbe : (sanitizeName m.dataset_name == k) = true := by
          simp [← hkey]
        simp only [List.find?_cons, hbe, cond_true]
        simp [lookupA, hm]
    · cases hm : dir.syncMeta with
      | none =>
        rw [ihl]
        simp [lookupA, he]
      | some m =>
        have hkey : k = sanitizeName m.dataset_name :=
          kbKeyOk_of (hkb (k, dir) (List.mem_cons_self _ _)) hm
        have hbe : (sanitizeName m.dataset_name == n) = false := by
          simp [← hkey, he]
        simp only [List.find?_cons, hbe, cond_false]
        rw [ihl]
        simp [lookupA, he]

/-- Pointwise value of the synced-knowledge-base refresh fold (the
sanitized dataset names of the processed listing assumed duplicate-free). -/
theorem lookupA_kbFold (env : RemoteEnv) (now : String) (L : List (String × String))
    (km : List (String × KbDir)) (n : String)
    (hnd : (L.map (fun kb => sanitizeName kb.2)).Nodup) :
    lookupA (L.foldl (fun k kb =>
        if env.knowledgeIds.contains kb.1 then
          saveKnowledgeDocuments k kb.1 kb.2 (docsWithContent (env.docsFor kb.1)) 50 now
        else k) km) n
      = (match L.find? (fun kb => sanitizeName kb.2 == n) with
         | some kb =>
           if env.knowledgeIds.contains kb.1 then
             some (kbDirAfterSave ((lookupA km n).getD ⟨[], none⟩) kb.1 kb.2
               (docsWithContent (env.docsFor kb.1)) 50 now)
           else lookupA km n
         | none => lookupA km n) := by
  induction L generalizing km with
  | nil => simp
  | cons kb rest ih =>
    rcases kb with ⟨did, dn⟩
    simp only [List.map_cons, List.nodup_cons] at hnd
    simp only [List.foldl_cons]
    rw [ih _ hnd.2]
    by_cases he : sanitizeName dn = n
    · have hfind : rest.find? (fun kb => sanitizeName kb.2 == n) = none := by
        rw [List.find?_eq_none]
        intro x hx
        simp only [beq_iff_eq]
        intro hxe
        exact hnd.1 (he ▸ hxe ▸ List.mem_map_of_mem (fun kb => sanitizeName kb.2) hx)
      rw [hfind]
      have hbe : (sanitizeName dn == n) = true := by simp [he]
      simp only [List.find?_cons, hbe, cond_true]
      by_cases hc : env.knowledgeIds.contains did = true
      · rw [if_pos hc, if_pos hc]
        show lookupA (saveKnowledgeDocuments km did dn
          (docsWithContent (env.docsFor did)) 50 now) n = _
        simp only [saveKnowledgeDocuments, he]
        rw [lookupA_insertA_self]
      · rw [if_neg hc, if_neg hc]
    · have hbe : (sanitizeName dn == n) = false := by simp [he]
      simp only [List.find?_cons, hbe, cond_false]
      have hstep : lookupA (if env.knowledgeIds.contains did then
          saveKnowledgeDocuments km did dn (docsWithContent (env.docsFor did)) 50 now
          else km) n = lookupA km n := by
        by_cases hc : env.knowledgeIds.contains did = true
        · rw [if_pos hc]
          simp only [saveKnowledgeDocuments]
          exact lookupA_insertA_ne _ _ _ _ (fun hh => he hh.symm)
        · rw [if_neg hc]
      rw [hstep]

theorem mem_insertA {α : Type} {l : List (String × α)} {k : String} {v : α}
    {e : String × α} (h : e ∈ insertA l k v) : e = (k, v) ∨ e ∈ l := by
  induction l with
  | nil =>
    simp [insertA] at h
    exact Or.inl h
  | cons x l ih =>
    rcases x with ⟨xk, xv⟩
    by_cases hx : xk = k
    · subst hx
      simp only [insertA, if_pos rfl] at h
      rcases List.mem_cons.mp h with h | h
      · exact Or.inl h
      · exact Or.inr (List.mem_cons_of_mem _ h)
    · simp only [insertA, if_neg hx] at h
      rcases List.mem_cons.mp h with h | h
      · exact Or.inr (h ▸ List.mem_cons_self _ _)
      · rcases ih h with h | h
        · exact Or.inl h
        · exact Or.inr (List.mem_cons_of_mem _ h)

/-- Keys stay duplicate-free through the knowledge refresh fold. -/
theorem nodup_keysA_kbFold (env : RemoteEnv) (now : String)
    (L : List (String × String)) (km : List (String × KbDir))
    (h : (keysA km).Nodup) :
    (keysA (L.foldl (fun k kb =>
        if env.knowledgeIds.contains kb.1 then
          saveKnowledgeDocuments k kb.1 kb.2 (docsWithContent (env.docsFor kb.1)) 50 now
        else k) km)).Nodup := by
  induction L generalizing km with
  | nil => exact h
  | cons kb rest ih =>
    simp only [List.foldl_cons]
    apply ih
    by_cases hc : env.knowledgeIds.contains kb.1 = true
    · rw [if_pos hc]
      simp only [saveKnowledgeDocuments]
      exact nodup_keysA_insertA _ _ _ h
    · rw [if_neg hc]
      exact h

/-- Every directory stays well-keyed through the knowledge refresh fold. -/
theorem kbKeyOkB_kbFold (env : RemoteEnv) (now : String)
    (L : List (String × String)) (km : List (String × KbDir))
    (h : ∀ e ∈ km, kbKeyOkB e = true) :
    ∀ e ∈ (L.foldl (fun k kb =>
        if env.knowledgeIds.contains kb.1 then
          saveKnowledgeDocuments k kb.1 kb.2 (docsWithContent (env.docsFor kb.1)) 50 now
        else k) km), kbKeyOkB e = true := by
  induction L generalizing km with
  | nil => exact h
  | cons kb rest ih =>
    simp only [List.foldl_cons]
    apply ih
    by_cases hc : env.knowledgeIds.contains kb.1 = true
    · rw [if_pos hc]
      intro e he
      simp only [saveKnowledgeDocuments] at he
      rcases mem_insertA he with he | he
      · subst he
        simp [kbKeyOkB, kbDirAfterSave]
      · exact h e he
    · rw [if_neg hc]
      exact h

/-- `saveKbFiles` leaves present file names present. -/
theorem lookupA_saveKbFiles_isSome (ov : Nat) (files : List (String × String))
    (docs : List DocInput) (fname : String)
    (h : (lookupA files fname).isSome = true) :
    (lookupA (saveKbFiles ov files docs) fname).isSome = true := by
  obtain ⟨c, hc⟩ := Option.isSome_iff_exists.mp h
  rw [lookupA_saveKbFiles_of_some ov files docs fname c hc]
  rfl

/-- After one `saveKbFiles` pass, every document's file name is present. -/
theorem saveKbFiles_covers (ov : Nat) (files : List (String × String))
    (docs : List DocInput) :
    ∀ d ∈ docs, (lookupA (saveKbFiles ov files docs) (docFileName d.name)).isSome = true := by
  induction docs generalizing files with
  | nil => simp
  | cons d0 ds ih =>
    intro d hd
    by_cases hfn : (lookupA files (docFileName d0.name)).isSome = true
    · have hstep : saveKbFiles ov files (d0 :: ds) = saveKbFiles ov files ds := by
        simp only [saveKbFiles, List.foldl_cons]
        rw [if_pos hfn]
      rw [hstep]
      rcases List.mem_cons.mp hd with hd0 | hds
      · subst hd0
        exact lookupA_saveKbFiles_isSome ov files ds _ hfn
      · exact ih files d hds
    · have hstep : saveKbFiles ov files (d0 :: ds)
          = saveKbFiles ov
              (insertA files (docFileName d0.name) (mergeDocContent ov d0)) ds := by
        simp only [saveKbFiles, List.foldl_cons]
        rw [if_neg hfn]
      rw [hstep]
      rcases List.mem_cons.mp hd with hd0 | hds
      · subst hd0
        apply lookupA_saveKbFiles_isSome
        rw [lookupA_insertA_self]
        rfl
      · exact ih _ d hds

/-- When every document's file is already present, `saveKbFiles` writes
nothing. -/
theorem saveKbFiles_of_all_present (ov : Nat) (files : List (String × String))
    (docs : List DocInput)
    (h : ∀ d ∈ docs, (lookupA files (docFileName d.name)).isSome = true) :
    saveKbFiles ov files docs = files := by
  induction docs with
  | nil => rfl
  | cons d ds ih =>
    have hfn := h d (List.mem_cons_self _ _)
    have hstep : saveKbFiles ov files (d :: ds) = saveKbFiles ov files ds := by
      simp only [saveKbFiles, List.foldl_cons]
      rw [if_pos hfn]
    rw [hstep]
    exact ih (fun d hd => h d (List.mem_cons_of_mem _ hd))

/-- Remote-fetched document entries are never local-only, and keeping a
list of local-only entries is a fixpoint of the filter. -/
theorem filter_localOnly_append (docs : List DocInput) (lo : List KbDocMeta)
    (hlo : ∀ d ∈ lo, (d.is_local && !((docs.map (·.id)).contains d.id)) = true) :
    (docs.map remoteDocMeta ++ lo).filter
        (fun d => d.is_local && !((docs.map (·.id)).contains d.id)) = lo := by
  rw [List.filter_append]
  have h1 : (docs.map remoteDocMeta).filter
      (fun d => d.is_local && !((docs.map (·.id)).contains d.id)) = [] := by
    rw [List.filter_eq_nil_iff]
    intro d hd
    obtain ⟨d0, _, heq⟩ := List.mem_map.mp hd
    subst heq
    simp [remoteDocMeta]
  have h2 : lo.filter (fun d => d.is_local && !((docs.map (·.id)).contains d.id)) = lo :=
    List.filter_eq_self.mpr hlo
  rw [h1, h2, List.nil_append]

/-- Saving the same fetched documents twice into a dataset directory
changes nothing but the recorded sync time: every file already exists (so
the local-first rule skips it) and the recorded document list reproduces
itself. -/
theorem filter_filter_localOnly (docs : List DocInput) (existing : List KbDocMeta) :
    (docs.map remoteDocMeta ++ existing.filter
        (fun d => d.is_local && !((docs.map (·.id)).contains d.id))).filter
      (fun d => d.is_local && !((docs.map (·.id)).contains d.id))
      = existing.filter (fun d => d.is_local && !((docs.map (·.id)).contains d.id)) := by
  apply filter_localOnly_append
  intro d hd
  exact (List.mem_filter.mp hd).2

theorem kbDirAfterSave_idem (dir : KbDir) (did dn : String) (docs : List DocInput)
    (ov : Nat) (t1 t2 : String) :
    stripTsKb (kbDirAfterSave (kbDirAfterSave dir did dn docs ov t1) did dn docs ov t2)
      = stripTsKb (kbDirAfterSave dir did dn docs ov t1) := by
  have hfiles : saveKbFiles ov (saveKbFiles ov dir.files docs) docs
      = saveKbFiles ov dir.files docs :=
    saveKbFiles_of_all_present ov _ docs (saveKbFiles_covers ov dir.files docs)
  cases hm : dir.syncMeta with
  | none =>
    simp only [kbDirAfterSave, hm, stripTsKb, stripTsKbSync]
    rw [hfiles, filter_filter_localOnly docs []]
    simp [stripTsKbSync]
  | some m =>
    simp only [kbDirAfterSave, hm, stripTsKb, stripTsKbSync]
    rw [hfiles, filter_filter_localOnly docs m.documents]
    simp [stripTsKbSync]

/-- The sync record written by `kbDirAfterSave` carries the given dataset id
and name. -/
theorem kbDirAfterSave_syncMeta_parts (dir : KbDir) (did dn : String)
    (docs : List DocInput) (ov : Nat) (t : String) :
    ∃ cnt docsl, (kbDirAfterSave dir did dn docs ov t).syncMeta
      = some ⟨did, dn, t, cnt, docsl⟩ :=
  ⟨_, _, rfl⟩

/-- Pointwise value of the synced-knowledge-base refresh of one pull. -/
theorem lookupA_pullKnowledgeDocs (km : List (String × KbDir)) (env : RemoteEnv)
    (now n : String) (hnd : (keysA km).Nodup) (hkb : ∀ e ∈ km, kbKeyOkB e = true) :
    lookupA (pullKnowledgeDocs km env now) n
      = (match lookupA km n with
         | none => none
         | some dir =>
           match dir.syncMeta with
           | none => some dir
           | some m =>
             if env.knowledgeIds.contains m.dataset_id then
               some (kbDirAfterSave dir m.dataset_id m.dataset_name
                 (docsWithContent (env.docsFor m.dataset_id)) 50 now)
             else some dir) := by
  unfold pullKnowledgeDocs
  rw [lookupA_kbFold env now (listSyncedKbs km) km n
    (nodup_sanitized_listSyncedKbs km hnd hkb)]
  rw [listSyncedKbs_find? km n hnd hkb]
  cases hs : lookupA km n with
  | none => rfl
  | some dir =>
    cases hm : dir.syncMeta with
    | none => simp [hm]
    | some m =>
      simp only [hm, Option.map_some']
      by_cases hc : env.knowledgeIds.contains m.dataset_id = true
      · rw [if_pos hc, if_pos hc]
        rfl
      · rw [if_neg hc, if_neg hc]

/-- The Knowledge refresh of the pull is idempotent up to `last_synced_at`. -/
theorem pullKnowledgeDocs_idem (env : RemoteEnv) (t1 t2 : String)
    (km : List (String × KbDir)) (hnd : (keysA km).Nodup)
    (hkb : ∀ e ∈ km, kbKeyOkB e = true) (n : String) :
    (lookupA (pullKnowledgeDocs (pullKnowledgeDocs km env t1) env t2) n).map stripTsKb
      = (lookupA (pullKnowledgeDocs km env t1) n).map stripTsKb := by
  have hnd1 : (keysA (pullKnowledgeDocs km env t1)).Nodup := by
    unfold pullKnowledgeDocs
    exact nodup_keysA_kbFold env t1 _ km hnd
  have hkb1 : ∀ e ∈ pullKnowledgeDocs km env t1, kbKeyOkB e = true := by
    unfold pullKnowledgeDocs
    exact kbKeyOkB_kbFold env t1 _ km hkb
  rw [lookupA_pullKnowledgeDocs (pullKnowledgeDocs km env t1) env t2 n hnd1 hkb1]
  rw [lookupA_pullKnowledgeDocs km env t1 n hnd hkb]
  cases hs : lookupA km n with
  | none => rfl
  | some dir =>
    cases hm : dir.syncMeta with
    | none => simp [hm]
    | some m =>
      by_cases hc : env.knowledgeIds.contains m.dataset_id = true
      · obtain ⟨cnt, docsl, hsm⟩ := kbDirAfterSave_syncMeta_parts dir m.dataset_id
          m.dataset_name (docsWithContent (env.docsFor m.dataset_id)) 50 t1
        simp only [hm, hc, eq_self_iff_true, if_true, hsm, Option.map_some']
        exact congrArg some (kbDirAfterSave_idem dir m.dataset_id m.dataset_name
          (docsWithContent (env.docsFor m.dataset_id)) 50 t1 t2)
      · have hcf : env.knowledgeIds.contains m.dataset_id = false := by
          simpa using hc
        have hcm : m.dataset_id ∉ env.knowledgeIds := not_mem_of_contains_false hcf
        simp [hm, hcm]

/-- C6 (amended): pulling twice against an unchanged remote reproduces the
first pull's state **except for the `last_synced_at` timestamp** written
into every app `.sync.yml`, every knowledge-base `.sync.yml`, and each of
the four registry files (which the source sets to
`new Date().toISOString()` on every run — `saveAppDsl` and the knowledge
save for the sync records, `getAllModels` / `getAllKnowledge` /
`getAllTools` / `getAllPlugins` for the registries): all `app.yml`
contents, every other sync-metadata field, all document files, and the
registry payloads are unchanged on the second run.  As for the first pull,
remote ids are assumed non-empty and stale local app directories are
assumed not to collide with sanitized remote names; dataset directories
are assumed keyed by their sanitized `dataset_name`, as the Store creates
them. -/
theorem C6_pull_idempotent_amended (hash : String → String)
    (modeOf : String → Option String) (st : WorkspaceState) (env : RemoteEnv)
    (t1 t2 : String)
    (hnd : (keysA st.studio).Nodup)
    (hknd : (keysA st.knowledge).Nodup)
    (hids : ∀ r ∈ env.apps, r.id ≠ "")
    (hstale : ∀ e ∈ st.studio, idOf e.2 ≠ "" →
        (remoteIdsOf env.apps).contains (idOf e.2) = false →
        lastBy (fun a => sanitizeName a.name) e.1 env.apps = none)
    (hkb : ∀ e ∈ st.knowledge, kbKeyOkB e = true) :
    (∀ n, (lookupA (pullWorkspaceData hash modeOf
          (pullWorkspaceData hash modeOf st env t1) env t2).studio n).map stripTsDir
        = (lookupA (pullWorkspaceData hash modeOf st env t1).studio n).map stripTsDir)
    ∧ (∀ n, (lookupA (pullWorkspaceData hash modeOf
          (pullWorkspaceData hash modeOf st env t1) env t2).knowledge n).map stripTsKb
        = (lookupA (pullWorkspaceData hash modeOf st env t1).knowledge n).map stripTsKb)
    ∧ (pullWorkspaceData hash modeOf (pullWorkspaceData hash modeOf st env t1) env t2).modelsReg.map stripTsReg
        = (pullWorkspaceData hash modeOf st env t1).modelsReg.map stripTsReg
    ∧ (pullWorkspaceData hash modeOf (pullWorkspaceData hash modeOf st env t1) env t2).knowledgeReg.map stripTsReg
        = (pullWorkspaceData hash modeOf st env t1).knowledgeReg.map stripTsReg
    ∧ (pullWorkspaceData hash modeOf (pullWorkspaceData hash modeOf st env t1) env t2).toolsReg.map stripTsReg
        = (pullWorkspaceData hash modeOf st env t1).toolsReg.map stripTsReg
    ∧ (pullWorkspaceData hash modeOf (pullWorkspaceData hash modeOf st env t1) env t2).pluginsReg.map stripTsReg
        = (pullWorkspaceData hash modeOf st env t1).pluginsReg.map stripTsReg := by
  refine ⟨fun n => ?_, fun n => ?_, rfl, rfl, rfl, rfl⟩
  · exact pullStudio_idem hash modeOf st.studio env.apps t1 t2 hnd hids hstale n
  · exact pullKnowledgeDocs_idem env t1 t2 st.knowledge hknd hkb n

/-- The remote seen by the C6 counterexample: one workflow app, nothing
else. -/
def c6Env : RemoteEnv :=
  ⟨[⟨"A1", "app", "the-dsl", "u1", .workflow, none, none⟩],
   "models-reg", "knowledge-reg", "tools-reg", "plugins-reg", [], fun _ => []⟩

/-- C6 counterexample: even against an unchanged remote, the second pull
rewrites the app's `.sync.yml` with a fresh `last_synced_at`, and rewrites
the models registry file with a fresh `last_synced_at` as well, so both
stored artifacts after the second run differ from the ones before it (here
`t2` vs `t1`) — the second run is **not** free of local modifications. -/
theorem C6_counterexample :
    lookupA (pullWorkspaceData (fun s => s) (fun _ => none)
        ⟨[], [], none, none, none, none⟩ c6Env "t1").studio "app"
      = some (pulledDir (fun s => s) (fun _ => none)
          ⟨"A1", "app", "the-dsl", "u1", .workflow, none, none⟩ "t1")
    ∧ lookupA (pullWorkspaceData (fun s => s) (fun _ => none)
        (pullWorkspaceData (fun s => s) (fun _ => none)
          ⟨[], [], none, none, none, none⟩ c6Env "t1") c6Env "t2").studio "app"
      = some (pulledDir (fun s => s) (fun _ => none)
          ⟨"A1", "app", "the-dsl", "u1", .workflow, none, none⟩ "t2")
    ∧ lookupA (pullWorkspaceData (fun s => s) (fun _ => none)
        (pullWorkspaceData (fun s => s) (fun _ => none)
          ⟨[], [], none, none, none, none⟩ c6Env "t1") c6Env "t2").studio "app"
      ≠ lookupA (pullWorkspaceData (fun s => s) (fun _ => none)
        ⟨[], [], none, none, none, none⟩ c6Env "t1").studio "app"
    ∧ (pullWorkspaceData (fun s => s) (fun _ => none)
        (pullWorkspaceData (fun s => s) (fun _ => none)
          ⟨[], [], none, none, none, none⟩ c6Env "t1") c6Env "t2").modelsReg
      ≠ (pullWorkspaceData (fun s => s) (fun _ => none)
        ⟨[], [], none, none, none, none⟩ c6Env "t1").modelsReg := by
  refine ⟨by decide, by decide, by decide, by decide⟩

/-- The workspace state of the C6 witness: one stale app directory and one
synced knowledge base. -/
def c6StW : WorkspaceState :=
  ⟨[("old", ⟨some "old-dsl", some ⟨"gone", .workflow, none, none, "t0", "u0", "h0"⟩⟩)],
   [("KB", ⟨[], some ⟨"ds1", "KB", "t0", 0, []⟩⟩)],
   none, none, none, none⟩

/-- The remote of the C6 witness: one app and one knowledge base with one
document. -/
def c6EnvW : RemoteEnv :=
  ⟨[⟨"A1", "app", "the-dsl", "u1", .workflow, none, none⟩],
   "m", "k", "t", "p", ["ds1"],
   fun _ => [⟨"d1", "doc", [⟨"s1", 0, "remote text"⟩]⟩]⟩

/-- Witness for C6 (amended) at a concrete workspace. -/
theorem C6_pull_idempotent_amended_witness :
    (lookupA (pullWorkspaceData (fun s => s) (fun _ => none)
        (pullWorkspaceData (fun s => s) (fun _ => none) c6StW c6EnvW "t1")
        c6EnvW "t2").studio "app").map stripTsDir
      = (lookupA (pullWorkspaceData (fun s => s) (fun _ => none)
          c6StW c6EnvW "t1").studio "app").map stripTsDir
    ∧ (lookupA (pullWorkspaceData (fun s => s) (fun _ => none)
        (pullWorkspaceData (fun s => s) (fun _ => none) c6StW c6EnvW "t1")
        c6EnvW "t2").knowledge "KB").map stripTsKb
      = (lookupA (pullWorkspaceData (fun s => s) (fun _ => none)
          c6StW c6EnvW "t1").knowledge "KB").map stripTsKb
    ∧ (pullWorkspaceData (fun s => s) (fun _ => none)
        (pullWorkspaceData (fun s => s) (fun _ => none) c6StW c6EnvW "t1")
        c6EnvW "t2").modelsReg.map stripTsReg
      = (pullWorkspaceData (fun s => s) (fun _ => none) c6StW c6EnvW "t1").modelsReg.map stripTsReg := by
  have h := C6_pull_idempotent_amended (fun s => s) (fun _ => none) c6StW c6EnvW "t1" "t2"
    (by decide) (by decide) (by decide) (by decide) (by decide)
  exact ⟨h.1 "app", h.2.1 "KB", h.2.2.1⟩

end Dify
